import Mathlib

/-!
Verification of the string hash table of `src/stdfn.c` (functions `isprime`,
`htab_create`, `htab_destroy`, `htab_hash`), a fixed-capacity open-addressing
table with double hashing.

Machine integers (`uint32_t`) are modelled as `Nat` with explicit reduction
modulo `2^32` where the C code can overflow.  Allocation (`calloc`/`malloc`)
is modelled by a boolean parameter saying whether the allocation succeeds.
A C string is modelled as the list of its bytes (the bytes before the NUL
terminator).  A NULL pointer argument is modelled by `Option`.
-/

/-- Modulus of `uint32_t` arithmetic. -/
def M32 : Nat := 4294967296

/-- Value of one key byte as read by `c = *sz++` (`stdfn.c` line 152) and then
converted to `uint32_t`: `char` is signed, so bytes ≥ 128 are sign-extended to
a negative `int`, which wraps modulo 2^32 when combined with `uint32_t`. -/
def cByte (b : Nat) : Nat := if b < 128 then b else (M32 - 256) + b

/-- One step of the sdbm accumulation `r = c + (r << 6) + (r << 16) - r`
(`stdfn.c` line 153), on `uint32_t`, i.e. modulo 2^32. -/
def sdbmStep (r b : Nat) : Nat := (cByte b + r * 64 + r * 65536 + (M32 - r % M32)) % M32

/-- The raw sdbm hash of a key: the `while ((c = *sz++) != 0)` loop of
`stdfn.c` lines 152-153, starting from `r = 0`. -/
def sdbmRaw (k : List Nat) : Nat := k.foldl sdbmStep 0

/-- The raw hash bumped away from 0 (`stdfn.c` lines 154-155). -/
def sdbmHash (k : List Nat) : Nat := if sdbmRaw k = 0 then 1 else sdbmRaw k

/-- The home index of a key: `hval = r % htab->size; if (hval == 0) ++hval;`
(`stdfn.c` lines 157-160). -/
def tableHash (k : List Nat) (size : Nat) : Nat :=
  if sdbmHash k % size = 0 then 1 else sdbmHash k % size

/-- Modelled from the spec: the slot type of the table (spec §3), as used by
`stdfn.c`.  The struct itself lives in a header that is not part of the given
sources; a slot has a `used` tag (0 = unused) and an owned key string. -/
structure htab_entry where
  used : Nat
  str : Option (List Nat)
deriving DecidableEq

/-- Modelled from the spec: the table type (spec §3), as used by `stdfn.c`:
a slot array (NULL when the table is not created), its prime size, and the
count of filled slots.  The slot array of a live table has `size + 1` slots. -/
structure htab_table where
  table : Option (List htab_entry)
  size : Nat
  filled : Nat
deriving DecidableEq

/-- Reading `htab->table[i]` (a zero-initialized slot out of range, which never
happens on the executions the theorems talk about). -/
def entryAt (tbl : List htab_entry) (i : Nat) : htab_entry := tbl.getD i ⟨0, none⟩

/-- Modelled from the spec: `safe_strcmp(str, slot.str) == 0` — the exact
string compare of the probed key with a slot's stored key (spec §4.1 step 4).
The `safe_strcmp` macro lives in a header that is not part of the given
sources; a slot holding no string never matches a key. -/
def strMatch (k : List Nat) (s : Option (List Nat)) : Prop := s = some k

instance strMatchDecidable (k : List Nat) (s : Option (List Nat)) : Decidable (strMatch k s) :=
  inferInstanceAs (Decidable (s = some k))

/-- The trial-division loop of `isprime` (`stdfn.c` lines 66-71), with explicit
fuel for structural recursion; the fuel given by `isprime` below is always
enough for the loop to reach its C exit condition. -/
def isprimeAux (number : Nat) : Nat → Nat → Bool
  | divider, 0 => decide (number % divider ≠ 0)
  | divider, fuel + 1 =>
      if divider * divider < number ∧ number % divider ≠ 0 then
        isprimeAux number (divider + 2) fuel
      else
        decide (number % divider ≠ 0)

/-- The `isprime` function of `stdfn.c` lines 63-72: trial division by odd
candidates starting at 3. -/
def isprime (number : Nat) : Bool := isprimeAux number 3 number

/-- The size-adjustment loop `while(!isprime(nel)) nel += 2;` of `htab_create`
(`stdfn.c` lines 92-93), with explicit fuel; the fuel given by `htabSize`
below is always enough for the loop to find its answer. -/
def findPrimeFrom : Nat → Nat → Nat
  | nel, 0 => nel
  | nel, fuel + 1 => if isprime nel then nel else findPrimeFrom (nel + 2) fuel

/-- The size actually used by `htab_create` for a requested size `nel`:
`nel |= 1;` then the `isprime` search loop (`stdfn.c` lines 91-93). -/
def htabSize (nel : Nat) : Nat := findPrimeFrom (nel ||| 1) (nel ||| 1)

/-- The `htab_create` function of `stdfn.c` lines 80-106.  `allocOk` models
whether the `calloc` of the slot array succeeds.  Returns the C `BOOL` result
and the table handle after the call. -/
def htab_create (allocOk : Bool) (nel : Nat) :
    Option htab_table → Bool × Option htab_table
  | none => (false, none)
  | some h =>
      if h.table ≠ none then (false, some h)
      else
        let sz := htabSize nel
        if allocOk then
          (true, some ⟨some (List.replicate (sz + 1) ⟨0, none⟩), sz, 0⟩)
        else
          (false, some ⟨none, sz, 0⟩)

/-- The `htab_destroy` function of `stdfn.c` lines 109-125: a no-op on a NULL
handle or a table with no slot array; otherwise it frees every owned string
and the slot array and zeroes `size` and `filled`. -/
def htab_destroy : Option htab_table → Option htab_table
  | none => none
  | some h =>
      match h.table with
      | none => some h
      | some _ => some ⟨none, 0, 0⟩

/-- One step of the probe sequence (`stdfn.c` lines 178-182):
`if (idx <= hval2) idx = size + idx - hval2; else idx -= hval2;`. -/
def probeStep (size hval2 idx : Nat) : Nat :=
  if idx ≤ hval2 then size + idx - hval2 else idx - hval2

/-- The `m`-th index of the probe sequence starting at the home index. -/
def probeIter (size hval2 hval : Nat) : Nat → Nat
  | 0 => hval
  | m + 1 => probeStep size hval2 (probeIter size hval2 hval m)

/-- Exit of the collision search: `found i` models `return idx` from inside
the loop of `stdfn.c` lines 176-195, `insert i` models falling through to the
insertion code at line 198 with `idx = i` (either because slot `i` is free or
because the loop broke after coming back to `hval`). -/
inductive ProbeExit where
  | found (idx : Nat)
  | insert (idx : Nat)
deriving DecidableEq

/-- The do-while probe loop of `stdfn.c` lines 176-195, with explicit fuel.
Each iteration: step `idx`; break (fall through to insertion) if back at
`hval`; return `idx` on a tag+string match; keep looping while the slot is
occupied, otherwise fall through to insertion at the free `idx`.  The fuel
passed by `hashExit` (the table size) is always enough on the states the
theorems talk about, because the probe sequence returns to `hval` after
`size` steps. -/
def probeLoop (tbl : List htab_entry) (size hval hval2 : Nat) (k : List Nat) :
    Nat → Nat → ProbeExit
  | idx, 0 => ProbeExit.insert idx
  | idx, fuel + 1 =>
      let idx1 := probeStep size hval2 idx
      if idx1 = hval then ProbeExit.insert idx1
      else if (entryAt tbl idx1).used = hval ∧ strMatch k (entryAt tbl idx1).str then
        ProbeExit.found idx1
      else if (entryAt tbl idx1).used ≠ 0 then
        probeLoop tbl size hval hval2 k idx1 fuel
      else
        ProbeExit.insert idx1

/-- The search part of `htab_hash` (`stdfn.c` lines 162-196): at the home
index, a free slot goes straight to insertion, a matching slot is returned,
and otherwise the double-hash probe loop runs with
`hval2 = 1 + hval % (size - 2)` (line 174). -/
def hashExit (tbl : List htab_entry) (size : Nat) (k : List Nat) : ProbeExit :=
  let hval := tableHash k size
  if (entryAt tbl hval).used ≠ 0 then
    if (entryAt tbl hval).used = hval ∧ strMatch k (entryAt tbl hval).str then
      ProbeExit.found hval
    else
      probeLoop tbl size hval (1 + hval % (size - 2)) k hval size
  else ProbeExit.insert hval

/-- The `htab_hash` function of `stdfn.c` lines 137-217 (lookup-or-insert).
`allocOk` models whether the `malloc` duplicating the key succeeds.  NULL
handle, missing slot array or NULL key return the sentinel 0 with no state
change (lines 145-147).  On the insertion path the code first rejects a full
table (`if_not_assert(htab->filled < htab->size)`, modelled by its release
behaviour `if (!(filled < size)) return 0;`), then frees any stale string,
stores the tag, and duplicates the key; if that duplication fails it returns 0
with the tag already written and `filled` not incremented (lines 206-216). -/
def htab_hash (allocOk : Bool) (str : Option (List Nat)) :
    Option htab_table → Nat × Option htab_table
  | none => (0, none)
  | some h =>
      match h.table with
      | none => (0, some h)
      | some tbl =>
          match str with
          | none => (0, some h)
          | some k =>
              match hashExit tbl h.size k with
              | ProbeExit.found idx => (idx, some h)
              | ProbeExit.insert idx =>
                  if h.filled < h.size then
                    if allocOk then
                      (idx, some ⟨some (tbl.set idx ⟨tableHash k h.size, some k⟩),
                                  h.size, h.filled + 1⟩)
                    else
                      (0, some ⟨some (tbl.set idx ⟨tableHash k h.size, none⟩),
                                h.size, h.filled⟩)
                  else (0, some h)

/-- Applying a sequence of lookup-or-insert operations, each with its own
allocation outcome and key (a `none` key models a NULL key pointer). -/
def applyOps (ops : List (Bool × Option (List Nat))) (s : Option htab_table) :
    Option htab_table :=
  ops.foldl (fun s op => (htab_hash op.1 op.2 s).2) s

/-- Inserting a list of keys in order (all allocations succeeding), collecting
the returned indices and the final state. -/
def insertList : List (List Nat) → Option htab_table → List Nat × Option htab_table
  | [], s => ([], s)
  | k :: ks, s =>
      let r := htab_hash true (some k) s
      let rest := insertList ks r.2
      (r.1 :: rest.1, rest.2)

/-- The tag a well-formed slot must carry, given its stored string. -/
def tagOf (size : Nat) : Option (List Nat) → Nat
  | none => 0
  | some k => tableHash k size

/-- Number of occupied slots of a slot array. -/
def usedCount (tbl : List htab_entry) : Nat :=
  ((Finset.range tbl.length).filter (fun i => (entryAt tbl i).used ≠ 0)).card

/-- The sizes `htab_create` can actually produce: `isprime` wrongly accepts 1
and wrongly rejects 3, so a created size is either 1 or a prime ≥ 5; `isprime`
is stated here in its executable form together with oddness, which is proved
below (`goodSize_prime`) to force primality. -/
def goodSize (c : Nat) : Prop := c = 1 ∨ (5 ≤ c ∧ c % 2 = 1 ∧ isprime c = true)

/-- The slot array of a live table (`[]` for an uncreated table). -/
def theTable (h : htab_table) : List htab_entry := h.table.getD []

/-- Well-formedness of a live table: the slot array exists and has `size + 1`
slots, the size is one `htab_create` produces, slot 0 is untouched, `filled`
counts the occupied slots, and every slot's tag is 0 when it is empty and the
home hash of its stored key when it is occupied. -/
def WF (h : htab_table) : Prop :=
  h.table = some (theTable h) ∧
  (theTable h).length = h.size + 1 ∧
  goodSize h.size ∧
  entryAt (theTable h) 0 = ⟨0, none⟩ ∧
  h.filled = usedCount (theTable h) ∧
  ∀ i, i < (theTable h).length →
    (entryAt (theTable h) i).used = tagOf h.size (entryAt (theTable h) i).str

instance goodSizeDecidable (c : Nat) : Decidable (goodSize c) := by
  unfold goodSize; infer_instance

instance WFDecidable (h : htab_table) : Decidable (WF h) := by
  unfold WF; infer_instance

/-- A key is stored somewhere in the slot array. -/
def hasKey (tbl : List htab_entry) (k : List Nat) : Prop :=
  ∃ i, i < tbl.length ∧ (entryAt tbl i).str = some k

/-! ### Basic helpers -/

/-- The C statement `nel |= 1` always produces an odd number. -/
theorem or_one_mod_two (n : Nat) : (n ||| 1) % 2 = 1 := by
  have h : (n ||| 1).testBit 0 = true := by
    rw [Nat.testBit_or]
    simp [Nat.testBit_zero]
  rw [Nat.testBit_zero] at h
  exact of_decide_eq_true h

theorem entryAt_set_self (tbl : List htab_entry) (i : Nat) (e : htab_entry)
    (h : i < tbl.length) : entryAt (tbl.set i e) i = e := by
  induction tbl generalizing i with
  | nil => simp at h
  | cons a tl ih =>
      cases i with
      | zero => simp [entryAt]
      | succ j =>
          simp only [List.set, entryAt, List.getD_cons_succ]
          exact ih j (by simpa using h)

theorem entryAt_set_ne (tbl : List htab_entry) (i j : Nat) (e : htab_entry)
    (h : i ≠ j) : entryAt (tbl.set i e) j = entryAt tbl j := by
  induction tbl generalizing i j with
  | nil => simp [List.set]
  | cons a tl ih =>
      cases i with
      | zero =>
          cases j with
          | zero => exact absurd rfl h
          | succ j' => simp [entryAt, List.set]
      | succ i' =>
          cases j with
          | zero => simp [entryAt, List.set]
          | succ j' =>
              simp only [List.set, entryAt, List.getD_cons_succ]
              exact ih i' j' (by omega)

theorem entryAt_of_le_length (tbl : List htab_entry) (i : Nat)
    (h : tbl.length ≤ i) : entryAt tbl i = ⟨0, none⟩ :=
  List.getD_eq_default tbl _ h

theorem entryAt_replicate_zero (n i : Nat) :
    entryAt (List.replicate n ⟨0, none⟩) i = ⟨0, none⟩ := by
  induction n generalizing i with
  | zero => simp [entryAt]
  | succ m ih =>
      cases i with
      | zero => simp [List.replicate, entryAt]
      | succ j =>
          simp only [List.replicate, entryAt, List.getD_cons_succ]
          exact ih j

/-- `tableHash` never returns 0 (`stdfn.c` lines 159-160). -/
theorem tableHash_pos (k : List Nat) (c : Nat) : 1 ≤ tableHash k c := by
  unfold tableHash
  split <;> omega

/-- On a table of size at least 2 the home index is at most `size - 1`. -/
theorem tableHash_lt (k : List Nat) (c : Nat) (hc : 2 ≤ c) : tableHash k c < c := by
  unfold tableHash
  have h : sdbmHash k % c < c := Nat.mod_lt _ (by omega)
  split <;> omega

theorem tableHash_one (k : List Nat) : tableHash k 1 = 1 := by
  simp [tableHash, Nat.mod_one]

/-- Bounds of the secondary hash `hval2 = 1 + hval % (size - 2)`
(`stdfn.c` line 174) for sizes at least 3. -/
theorem hval2_bounds (h c : Nat) (hc : 3 ≤ c) :
    1 ≤ 1 + h % (c - 2) ∧ (1 + h % (c - 2)) + 2 ≤ c := by
  have hlt : h % (c - 2) < c - 2 := Nat.mod_lt _ (by omega)
  omega

/-! ### Correctness of the `isprime` trial-division loop -/

/-- If the trial-division loop accepts an odd number ≥ 5, given enough fuel and
the invariant that no odd candidate below the current divider divides it, the
number is prime. -/
theorem prime_of_isprimeAux :
    ∀ fuel d n, n % 2 = 1 → 5 ≤ n → d % 2 = 1 → 3 ≤ d → n ≤ d + 2 * fuel →
      (∀ e, e % 2 = 1 → 3 ≤ e → e < d → ¬ e ∣ n) →
      isprimeAux n d fuel = true → Nat.Prime n := by
  intro fuel
  induction fuel with
  | zero =>
      intro d n hn2 hn5 hd2 hd3 hbound hinv hrun
      have hnd : n % d ≠ 0 := of_decide_eq_true hrun
      by_contra hnp
      have hp : Nat.Prime n.minFac := Nat.minFac_prime (by omega)
      have hpd : n.minFac ∣ n := Nat.minFac_dvd n
      have hp2 : n.minFac * n.minFac ≤ n := by
        have := Nat.minFac_sq_le_self (show 0 < n by omega) hnp
        rwa [pow_two] at this
      have hne2 : n.minFac ≠ 2 := by
        intro h2
        rw [h2] at hpd
        have := (Nat.dvd_iff_mod_eq_zero).mp hpd
        omega
      have hp3 : 3 ≤ n.minFac := by
        have := hp.two_le
        omega
      rcases Nat.lt_or_ge n.minFac d with hlt | hge
      · exact hinv n.minFac (Nat.odd_iff.mp (hp.odd_of_ne_two hne2)) hp3 hlt hpd
      · have h3p : 3 * n.minFac ≤ n.minFac * n.minFac := Nat.mul_le_mul_right _ hp3
        have hch : n.minFac * n.minFac ≤ n.minFac := le_trans hp2 (le_trans hbound (by omega))
        have : 3 * n.minFac ≤ n.minFac := le_trans h3p hch
        omega
  | succ f ih =>
      intro d n hn2 hn5 hd2 hd3 hbound hinv hrun
      unfold isprimeAux at hrun
      by_cases hg : d * d < n ∧ n % d ≠ 0
      · rw [if_pos hg] at hrun
        refine ih (d + 2) n hn2 hn5 (by omega) (by omega) (by omega) ?_ hrun
        intro e he2 he3 helt
        have he' : e < d ∨ e = d := by omega
        rcases he' with he' | he'
        · exact hinv e he2 he3 he'
        · subst he'
          intro hdvd
          exact hg.2 ((Nat.dvd_iff_mod_eq_zero).mp hdvd)
      · rw [if_neg hg] at hrun
        have hnd : n % d ≠ 0 := of_decide_eq_true hrun
        have hdd : n ≤ d * d := by
          by_contra hc
          exact hg ⟨by omega, hnd⟩
        by_contra hnp
        have hp : Nat.Prime n.minFac := Nat.minFac_prime (by omega)
        have hpd : n.minFac ∣ n := Nat.minFac_dvd n
        have hp2 : n.minFac * n.minFac ≤ n := by
          have := Nat.minFac_sq_le_self (show 0 < n by omega) hnp
          rwa [pow_two] at this
        have hne2 : n.minFac ≠ 2 := by
          intro h2
          rw [h2] at hpd
          have := (Nat.dvd_iff_mod_eq_zero).mp hpd
          omega
        have hp3 : 3 ≤ n.minFac := by
          have := hp.two_le
          omega
        have hple : n.minFac ≤ d := by
          by_contra hc
          have hdp : d < n.minFac := by omega
          have : d * d < n.minFac * n.minFac := by
            calc d * d < n.minFac * d := Nat.mul_lt_mul_of_lt_of_le hdp (le_refl d) (by omega)
            _ ≤ n.minFac * n.minFac := Nat.mul_le_mul_left _ (by omega)
          omega
        rcases Nat.lt_or_ge n.minFac d with hlt | hge
        · exact hinv n.minFac (Nat.odd_iff.mp (hp.odd_of_ne_two hne2)) hp3 hlt hpd
        · have : n.minFac = d := by omega
          rw [this] at hpd
          exact hnd ((Nat.dvd_iff_mod_eq_zero).mp hpd)

/-- An odd number at least 5 that `isprime` accepts is prime. -/
theorem prime_of_isprime (n : Nat) (h2 : n % 2 = 1) (h5 : 5 ≤ n)
    (h : isprime n = true) : Nat.Prime n := by
  refine prime_of_isprimeAux n 3 n h2 h5 (by omega) (by omega) (by omega) ?_ h
  intro e _ _ _
  omega

/-- The trial-division loop accepts every odd prime beyond the current
divider, given enough fuel. -/
theorem isprimeAux_of_prime :
    ∀ fuel d p, Nat.Prime p → 5 ≤ p → d % 2 = 1 → 3 ≤ d → d < p → p ≤ d + 2 * fuel →
      isprimeAux p d fuel = true := by
  intro fuel
  induction fuel with
  | zero =>
      intro d p hp hp5 hd2 hd3 hdp hbound
      refine decide_eq_true ?_
      intro hmod
      rcases hp.eq_one_or_self_of_dvd d ((Nat.dvd_iff_mod_eq_zero).mpr hmod) with h | h <;> omega
  | succ f ih =>
      intro d p hp hp5 hd2 hd3 hdp hbound
      have hpd : p % d ≠ 0 := by
        intro hmod
        rcases hp.eq_one_or_self_of_dvd d ((Nat.dvd_iff_mod_eq_zero).mpr hmod) with h | h <;> omega
      unfold isprimeAux
      by_cases hdd : d * d < p
      · rw [if_pos ⟨hdd, hpd⟩]
        have h3d : 3 * d ≤ d * d := Nat.mul_le_mul_right _ hd3
        have h3dp : 3 * d < p := lt_of_le_of_lt h3d hdd
        exact ih (d + 2) p hp hp5 (by omega) (by omega) (by omega) (by omega)
      · rw [if_neg (by tauto)]
        exact decide_eq_true hpd

/-- `isprime` accepts every odd prime at least 5. -/
theorem isprime_of_prime (p : Nat) (hp : Nat.Prime p) (h2 : p % 2 = 1)
    (h5 : 5 ≤ p) : isprime p = true :=
  isprimeAux_of_prime p 3 p hp h5 (by omega) (by omega) (by omega) (by omega)

/-- A size satisfying `goodSize` is 1 or a genuine prime at least 5. -/
theorem goodSize_prime (c : Nat) (h : goodSize c) :
    c = 1 ∨ (Nat.Prime c ∧ 5 ≤ c) := by
  rcases h with h | ⟨h5, h2, hip⟩
  · exact Or.inl h
  · exact Or.inr ⟨prime_of_isprime c h2 h5 hip, h5⟩

/-! ### The size computed by `htab_create` -/

/-- The size search loop returns an `isprime`-accepted value whenever one of
the candidates it can reach is accepted. -/
theorem findPrimeFrom_isprime :
    ∀ fuel start, (∃ m, m < fuel ∧ isprime (start + 2 * m) = true) →
      isprime (findPrimeFrom start fuel) = true := by
  intro fuel
  induction fuel with
  | zero =>
      rintro start ⟨m, hm, _⟩
      omega
  | succ f ih =>
      rintro start ⟨m, hm, hp⟩
      unfold findPrimeFrom
      by_cases hs : isprime start
      · rw [if_pos hs]; exact hs
      · rw [if_neg hs]
        refine ih (start + 2) ⟨m - 1, by
          constructor
          · rcases Nat.eq_zero_or_pos m with h0 | h1
            · rw [h0] at hp; simp at hp; exact absurd hp hs
            · omega
          · have hm0 : m ≠ 0 := by
              intro h0
              rw [h0] at hp; simp at hp; exact hs hp
            have : start + 2 + 2 * (m - 1) = start + 2 * m := by omega
            rw [this]; exact hp⟩

/-- The size search loop preserves parity and never shrinks its argument. -/
theorem findPrimeFrom_facts :
    ∀ fuel start, (findPrimeFrom start fuel) % 2 = start % 2 ∧
      start ≤ findPrimeFrom start fuel := by
  intro fuel
  induction fuel with
  | zero => intro start; exact ⟨rfl, le_refl _⟩
  | succ f ih =>
      intro start
      unfold findPrimeFrom
      by_cases hs : isprime start
      · rw [if_pos hs]; exact ⟨rfl, le_refl _⟩
      · rw [if_neg hs]
        have := ih (start + 2)
        omega

/-- Every size `htab_create` computes is 1 or an odd `isprime`-accepted number
at least 5 — hence (`goodSize_prime`) 1 or an odd prime at least 5.  Note that
3 is impossible: `isprime(3)` wrongly returns 0 because the trial division
tests `3 % 3`. -/
theorem htabSize_goodSize (nel : Nat) : goodSize (htabSize nel) := by
  have hodd : (nel ||| 1) % 2 = 1 := or_one_mod_two nel
  have hcases : nel ||| 1 = 1 ∨ nel ||| 1 = 3 ∨ 5 ≤ nel ||| 1 := by omega
  unfold htabSize
  rcases hcases with h1 | h3 | h5
  · rw [h1]; decide
  · rw [h3]; decide
  · obtain ⟨p, hp, hgt, hle⟩ := Nat.bertrand (nel ||| 1) (by omega)
    have hp5 : 5 ≤ p := by omega
    have hpodd : p % 2 = 1 := Nat.odd_iff.mp (hp.odd_of_ne_two (by omega))
    have hm : ∃ m, m < nel ||| 1 ∧ isprime ((nel ||| 1) + 2 * m) = true := by
      refine ⟨(p - (nel ||| 1)) / 2, by omega, ?_⟩
      have heq : (nel ||| 1) + 2 * ((p - (nel ||| 1)) / 2) = p := by omega
      rw [heq]
      exact isprime_of_prime p hp hpodd hp5
    have hip := findPrimeFrom_isprime (nel ||| 1) (nel ||| 1) hm
    have hfacts := findPrimeFrom_facts (nel ||| 1) (nel ||| 1)
    exact Or.inr ⟨by omega, by omega, hip⟩

/-- Shape of a successful `htab_create` on an empty handle. -/
theorem htab_create_ok (nel : Nat) (h : htab_table) (hnone : h.table = none) :
    htab_create true nel (some h) =
      (true, some ⟨some (List.replicate (htabSize nel + 1) ⟨0, none⟩),
                   htabSize nel, 0⟩) := by
  unfold htab_create
  simp [hnone]

/-- `usedCount` of an all-free slot array is 0. -/
theorem usedCount_replicate (n : Nat) :
    usedCount (List.replicate n ⟨0, none⟩) = 0 := by
  unfold usedCount
  rw [Finset.card_eq_zero, Finset.filter_eq_empty_iff]
  intro i _
  simp [entryAt_replicate_zero]

/-- A successful `htab_create` on an empty handle yields a well-formed empty
table. -/
theorem WF_of_create (nel : Nat) (h s0 : htab_table) (hnone : h.table = none)
    (hc : htab_create true nel (some h) = (true, some s0)) :
    WF s0 ∧ s0.filled = 0 ∧ s0.size = htabSize nel := by
  rw [htab_create_ok nel h hnone] at hc
  have hs0 : s0 = ⟨some (List.replicate (htabSize nel + 1) ⟨0, none⟩), htabSize nel, 0⟩ := by
    have := congrArg Prod.snd hc
    simpa using this.symm
  subst hs0
  refine ⟨⟨rfl, by simp [theTable], htabSize_goodSize nel, ?_, ?_, ?_⟩, rfl, rfl⟩
  · exact entryAt_replicate_zero _ 0
  · show (0 : Nat) = usedCount (theTable _)
    rw [show theTable ⟨some (List.replicate (htabSize nel + 1) ⟨0, none⟩), htabSize nel, 0⟩
        = List.replicate (htabSize nel + 1) ⟨0, none⟩ from rfl]
    rw [usedCount_replicate]
  · intro i _
    rw [show theTable ⟨some (List.replicate (htabSize nel + 1) ⟨0, none⟩), htabSize nel, 0⟩
        = List.replicate (htabSize nel + 1) ⟨0, none⟩ from rfl]
    rw [entryAt_replicate_zero]
    rfl

/-! ### Counting occupied slots -/

theorem usedCount_set_of_free (tbl : List htab_entry) (i : Nat) (e : htab_entry)
    (hi : i < tbl.length) (hfree : (entryAt tbl i).used = 0) (he : e.used ≠ 0) :
    usedCount (tbl.set i e) = usedCount tbl + 1 := by
  unfold usedCount
  rw [List.length_set]
  have hset : (Finset.range tbl.length).filter
        (fun j => (entryAt (tbl.set i e) j).used ≠ 0)
      = insert i ((Finset.range tbl.length).filter
        (fun j => (entryAt tbl j).used ≠ 0)) := by
    ext j
    by_cases hj : j = i
    · subst hj
      simp [Finset.mem_filter, Finset.mem_range, entryAt_set_self tbl j e hi, he, hi]
    · have hne : i ≠ j := fun h => hj h.symm
      simp [Finset.mem_filter, Finset.mem_insert, Finset.mem_range, hj,
        entryAt_set_ne tbl i j e hne]
  rw [hset, Finset.card_insert_of_not_mem]
  intro hmem
  rw [Finset.mem_filter] at hmem
  exact hmem.2 hfree

theorem all_used_of_usedCount (tbl : List htab_entry) (c : Nat)
    (hlen : tbl.length = c + 1) (h0 : entryAt tbl 0 = ⟨0, none⟩)
    (hcnt : c ≤ usedCount tbl) :
    ∀ j, 1 ≤ j → j ≤ c → (entryAt tbl j).used ≠ 0 := by
  have hsub : (Finset.range tbl.length).filter (fun i => (entryAt tbl i).used ≠ 0)
      ⊆ Finset.Icc 1 c := by
    intro j hj
    rw [Finset.mem_filter, Finset.mem_range] at hj
    rw [Finset.mem_Icc]
    have hj0 : j ≠ 0 := by
      intro h
      rw [h, h0] at hj
      exact hj.2 rfl
    omega
  have heq := Finset.eq_of_subset_of_card_le hsub (by
    rw [Nat.card_Icc]
    have hcard : usedCount tbl = ((Finset.range tbl.length).filter
        (fun i => (entryAt tbl i).used ≠ 0)).card := rfl
    omega)
  intro j h1 hc
  have hjmem : j ∈ Finset.Icc 1 c := Finset.mem_Icc.mpr ⟨h1, hc⟩
  rw [← heq] at hjmem
  exact (Finset.mem_filter.mp hjmem).2

theorem usedCount_le (tbl : List htab_entry) (c : Nat)
    (hlen : tbl.length = c + 1) (h0 : entryAt tbl 0 = ⟨0, none⟩) :
    usedCount tbl ≤ c := by
  have hsub : (Finset.range tbl.length).filter (fun i => (entryAt tbl i).used ≠ 0)
      ⊆ Finset.Icc 1 c := by
    intro j hj
    rw [Finset.mem_filter, Finset.mem_range] at hj
    rw [Finset.mem_Icc]
    have hj0 : j ≠ 0 := by
      intro h
      rw [h, h0] at hj
      exact hj.2 rfl
    omega
  have := Finset.card_le_card hsub
  rw [Nat.card_Icc] at this
  have hcard : usedCount tbl = ((Finset.range tbl.length).filter
      (fun i => (entryAt tbl i).used ≠ 0)).card := rfl
  omega

theorem exists_free_of_usedCount_lt (tbl : List htab_entry) (c : Nat)
    (hlen : tbl.length = c + 1) (hcnt : usedCount tbl < c) :
    ∃ j, 1 ≤ j ∧ j ≤ c ∧ (entryAt tbl j).used = 0 := by
  by_contra h
  push_neg at h
  have hsub : Finset.Icc 1 c ⊆ (Finset.range tbl.length).filter
      (fun i => (entryAt tbl i).used ≠ 0) := by
    intro j hj
    rw [Finset.mem_Icc] at hj
    rw [Finset.mem_filter, Finset.mem_range]
    exact ⟨by omega, h j hj.1 hj.2⟩
  have := Finset.card_le_card hsub
  rw [Nat.card_Icc] at this
  unfold usedCount at hcnt
  omega

theorem all_free_of_usedCount_zero (tbl : List htab_entry)
    (hcnt : usedCount tbl = 0) :
    ∀ j, j < tbl.length → (entryAt tbl j).used = 0 := by
  unfold usedCount at hcnt
  rw [Finset.card_eq_zero] at hcnt
  intro j hj
  by_contra hne
  have hmem : j ∈ (Finset.range tbl.length).filter
      (fun i => (entryAt tbl i).used ≠ 0) :=
    Finset.mem_filter.mpr ⟨Finset.mem_range.mpr hj, hne⟩
  rw [hcnt] at hmem
  exact absurd hmem (Finset.not_mem_empty j)

/-! ### The double-hashing probe sequence -/

/-- The probe step is subtraction of `hval2` modulo `size` on the index range
`[1, size]` (shifted by one). -/
theorem probeStep_mod (c h2 x : Nat) (hx1 : 1 ≤ x) (hx2 : x ≤ c)
    (h21 : 1 ≤ h2) (h22 : h2 + 2 ≤ c) :
    probeStep c h2 x = (x + (c - h2) - 1) % c + 1 := by
  unfold probeStep
  by_cases hle : x ≤ h2
  · rw [if_pos hle, Nat.mod_eq_of_lt (by omega)]
    omega
  · rw [if_neg hle]
    have heq : x + (c - h2) - 1 = (x - h2 - 1) + c := by omega
    rw [heq, Nat.add_mod_right, Nat.mod_eq_of_lt (by omega)]
    omega

/-- Closed form of the probe sequence: the `m`-th probe is
`(hval - 1 - m * hval2) mod size` shifted back into `[1, size]`. -/
theorem probeIter_closed (c h2 h : Nat) (hh1 : 1 ≤ h) (hh2 : h ≤ c)
    (h21 : 1 ≤ h2) (h22 : h2 + 2 ≤ c) :
    ∀ m, probeIter c h2 h m = (h - 1 + m * (c - h2)) % c + 1 := by
  intro m
  induction m with
  | zero =>
      show h = (h - 1 + 0 * (c - h2)) % c + 1
      rw [Nat.zero_mul, Nat.add_zero, Nat.mod_eq_of_lt (by omega)]
      omega
  | succ n ih =>
      show probeStep c h2 (probeIter c h2 h n) = (h - 1 + (n + 1) * (c - h2)) % c + 1
      rw [ih]
      have hx1 : 1 ≤ (h - 1 + n * (c - h2)) % c + 1 := by omega
      have hx2 : (h - 1 + n * (c - h2)) % c + 1 ≤ c := by
        have := Nat.mod_lt (h - 1 + n * (c - h2)) (show 0 < c by omega)
        omega
      rw [probeStep_mod c h2 _ hx1 hx2 h21 h22]
      have heq : (h - 1 + n * (c - h2)) % c + 1 + (c - h2) - 1
          = (h - 1 + n * (c - h2)) % c + (c - h2) := by omega
      rw [heq, Nat.mod_add_mod]
      have heq2 : h - 1 + n * (c - h2) + (c - h2) = h - 1 + (n + 1) * (c - h2) := by
        rw [Nat.succ_mul]
        omega
      rw [heq2]

/-- Every probe index lies in `[1, size]`. -/
theorem probeIter_range (c h2 h : Nat) (hh1 : 1 ≤ h) (hh2 : h ≤ c)
    (h21 : 1 ≤ h2) (h22 : h2 + 2 ≤ c) (m : Nat) :
    1 ≤ probeIter c h2 h m ∧ probeIter c h2 h m ≤ c := by
  rw [probeIter_closed c h2 h hh1 hh2 h21 h22]
  have := Nat.mod_lt (h - 1 + m * (c - h2)) (show 0 < c by omega)
  omega

/-- With a prime size the probe sequence is injective over its first `size`
steps: the step `size - hval2` is coprime to the size. -/
theorem probeIter_inj (c h2 h : Nat) (hc : Nat.Prime c) (hh1 : 1 ≤ h) (hh2 : h ≤ c)
    (h21 : 1 ≤ h2) (h22 : h2 + 2 ≤ c) (m1 m2 : Nat) (hm1 : m1 < c) (hm2 : m2 < c)
    (heq : probeIter c h2 h m1 = probeIter c h2 h m2) : m1 = m2 := by
  rw [probeIter_closed c h2 h hh1 hh2 h21 h22, probeIter_closed c h2 h hh1 hh2 h21 h22] at heq
  have hmod : (h - 1 + m1 * (c - h2)) % c = (h - 1 + m2 * (c - h2)) % c := by omega
  have hcop : Nat.Coprime c (c - h2) := by
    rw [hc.coprime_iff_not_dvd]
    intro hdvd
    have := Nat.le_of_dvd (by omega) hdvd
    omega
  have hcancel : m1 * (c - h2) ≡ m2 * (c - h2) [MOD c] :=
    Nat.ModEq.add_left_cancel' (h - 1) hmod
  rcases Nat.le_total m1 m2 with hle | hle
  · have hdvd : c ∣ m2 * (c - h2) - m1 * (c - h2) :=
      (Nat.modEq_iff_dvd' (Nat.mul_le_mul_right _ hle)).mp hcancel
    rw [← Nat.sub_mul] at hdvd
    have hd2 := hcop.dvd_of_dvd_mul_right hdvd
    rcases Nat.eq_zero_or_pos (m2 - m1) with h0 | hpos
    · omega
    · have := Nat.le_of_dvd hpos hd2
      omega
  · have hdvd : c ∣ m1 * (c - h2) - m2 * (c - h2) :=
      (Nat.modEq_iff_dvd' (Nat.mul_le_mul_right _ hle)).mp hcancel.symm
    rw [← Nat.sub_mul] at hdvd
    have hd2 := hcop.dvd_of_dvd_mul_right hdvd
    rcases Nat.eq_zero_or_pos (m1 - m2) with h0 | hpos
    · omega
    · have := Nat.le_of_dvd hpos hd2
      omega

/-- After exactly `size` steps the probe sequence is back at the home index. -/
theorem probeIter_cycle (c h2 h : Nat) (hh1 : 1 ≤ h) (hh2 : h ≤ c)
    (h21 : 1 ≤ h2) (h22 : h2 + 2 ≤ c) : probeIter c h2 h c = h := by
  rw [probeIter_closed c h2 h hh1 hh2 h21 h22]
  rw [Nat.add_mul_mod_self_left, Nat.mod_eq_of_lt (by omega)]
  omega

/-- A probe strictly inside the cycle is never the home index. -/
theorem probeIter_ne (c h2 h : Nat) (hc : Nat.Prime c) (hh1 : 1 ≤ h) (hh2 : h ≤ c)
    (h21 : 1 ≤ h2) (h22 : h2 + 2 ≤ c) (m : Nat) (hm1 : 1 ≤ m) (hm2 : m < c) :
    probeIter c h2 h m ≠ h := by
  intro heq
  have h0 : probeIter c h2 h 0 = h := rfl
  have := probeIter_inj c h2 h hc hh1 hh2 h21 h22 m 0 hm2 (by
    have := hc.two_le
    omega) (by rw [heq, h0])
  omega

/-- With a prime size the first `size` probes visit every index of `[1, size]`. -/
theorem probeIter_cover (c h2 h : Nat) (hc : Nat.Prime c) (hh1 : 1 ≤ h) (hh2 : h ≤ c)
    (h21 : 1 ≤ h2) (h22 : h2 + 2 ≤ c) (j : Nat) (hj1 : 1 ≤ j) (hj2 : j ≤ c) :
    ∃ m, m < c ∧ probeIter c h2 h m = j := by
  have hinj : Set.InjOn (probeIter c h2 h) (Finset.range c) := by
    intro m1 hm1 m2 hm2 heq
    rw [Finset.coe_range, Set.mem_Iio] at hm1 hm2
    exact probeIter_inj c h2 h hc hh1 hh2 h21 h22 m1 m2 hm1 hm2 heq
  have hcard : ((Finset.range c).image (probeIter c h2 h)).card = c := by
    rw [Finset.card_image_of_injOn hinj, Finset.card_range]
  have hsub : (Finset.range c).image (probeIter c h2 h) ⊆ Finset.Icc 1 c := by
    intro x hx
    rw [Finset.mem_image] at hx
    obtain ⟨m, _, hm⟩ := hx
    rw [Finset.mem_Icc, ← hm]
    exact probeIter_range c h2 h hh1 hh2 h21 h22 m
  have heq := Finset.eq_of_subset_of_card_le hsub (by rw [Nat.card_Icc, hcard]; omega)
  have hjmem : j ∈ Finset.Icc 1 c := Finset.mem_Icc.mpr ⟨hj1, hj2⟩
  rw [← heq, Finset.mem_image] at hjmem
  obtain ⟨m, hmr, hm⟩ := hjmem
  exact ⟨m, Finset.mem_range.mp hmr, hm⟩

/-! ### Characterisation of the probe loop -/

/-- Unfolding one iteration of the probe loop. -/
theorem probeLoop_succ (tbl : List htab_entry) (c h h2 : Nat) (k : List Nat)
    (idx fuel : Nat) :
    probeLoop tbl c h h2 k idx (fuel + 1) =
      if probeStep c h2 idx = h then ProbeExit.insert (probeStep c h2 idx)
      else if (entryAt tbl (probeStep c h2 idx)).used = h ∧
          strMatch k (entryAt tbl (probeStep c h2 idx)).str then
        ProbeExit.found (probeStep c h2 idx)
      else if (entryAt tbl (probeStep c h2 idx)).used ≠ 0 then
        probeLoop tbl c h h2 k (probeStep c h2 idx) fuel
      else ProbeExit.insert (probeStep c h2 idx) := rfl

/-- Behaviour of the probe loop on a prime-sized table, started anywhere in
the probe cycle with every earlier probe occupied and unmatched: either there
is a first later probe that matches (the loop returns it) or is free (the loop
falls through to insert there), or every probe of the cycle is occupied and
unmatched and the loop breaks back at the home index, falling through to the
insertion path with `idx = hval`. -/
theorem probeLoop_spec (tbl : List htab_entry) (c h2 h : Nat) (k : List Nat)
    (hc : Nat.Prime c) (hh1 : 1 ≤ h) (hh2 : h < c) (h21 : 1 ≤ h2) (h22 : h2 + 2 ≤ c) :
    ∀ fuel m, 1 ≤ m → m ≤ c → c + 1 ≤ m + fuel →
      (∀ j, 1 ≤ j → j < m →
        ¬ ((entryAt tbl (probeIter c h2 h j)).used = h ∧
            strMatch k (entryAt tbl (probeIter c h2 h j)).str) ∧
          (entryAt tbl (probeIter c h2 h j)).used ≠ 0) →
      (∃ m', m ≤ m' ∧ m' < c ∧
        (∀ j, 1 ≤ j → j < m' →
          ¬ ((entryAt tbl (probeIter c h2 h j)).used = h ∧
              strMatch k (entryAt tbl (probeIter c h2 h j)).str) ∧
            (entryAt tbl (probeIter c h2 h j)).used ≠ 0) ∧
        ((((entryAt tbl (probeIter c h2 h m')).used = h ∧
            strMatch k (entryAt tbl (probeIter c h2 h m')).str) ∧
          probeLoop tbl c h h2 k (probeIter c h2 h (m - 1)) fuel
            = ProbeExit.found (probeIter c h2 h m')) ∨
         (¬ ((entryAt tbl (probeIter c h2 h m')).used = h ∧
              strMatch k (entryAt tbl (probeIter c h2 h m')).str) ∧
          (entryAt tbl (probeIter c h2 h m')).used = 0 ∧
          probeLoop tbl c h h2 k (probeIter c h2 h (m - 1)) fuel
            = ProbeExit.insert (probeIter c h2 h m'))))
      ∨ ((∀ j, 1 ≤ j → j < c →
          ¬ ((entryAt tbl (probeIter c h2 h j)).used = h ∧
              strMatch k (entryAt tbl (probeIter c h2 h j)).str) ∧
            (entryAt tbl (probeIter c h2 h j)).used ≠ 0) ∧
        probeLoop tbl c h h2 k (probeIter c h2 h (m - 1)) fuel
          = ProbeExit.insert h) := by
  intro fuel
  induction fuel with
  | zero =>
      intro m hm1 hm2 hfuel hprev
      omega
  | succ fuel ih =>
      intro m hm1 hm2 hfuel hprev
      have hstep : probeStep c h2 (probeIter c h2 h (m - 1)) = probeIter c h2 h m := by
        have h1 : probeIter c h2 h (m - 1 + 1)
            = probeStep c h2 (probeIter c h2 h (m - 1)) := rfl
        have h2' : m - 1 + 1 = m := by omega
        rw [h2'] at h1
        exact h1.symm
      by_cases hbreak : probeIter c h2 h m = h
      · have hm_eq : m = c := by
          by_contra hne
          exact probeIter_ne c h2 h hc hh1 (le_of_lt hh2) h21 h22 m hm1
            (by omega) hbreak
        right
        refine ⟨fun j hj1 hj2 => hprev j hj1 (by omega), ?_⟩
        rw [probeLoop_succ, hstep, if_pos hbreak, hbreak]
      · by_cases hmatch : (entryAt tbl (probeIter c h2 h m)).used = h ∧
            strMatch k (entryAt tbl (probeIter c h2 h m)).str
        · have hmc : m < c := by
            rcases Nat.lt_or_ge m c with hlt | hge
            · exact hlt
            · have hmeq : m = c := by omega
              rw [hmeq] at hbreak
              exact absurd (probeIter_cycle c h2 h hh1 (le_of_lt hh2) h21 h22) hbreak
          refine Or.inl ⟨m, le_refl m, hmc, hprev, Or.inl ⟨hmatch, ?_⟩⟩
          rw [probeLoop_succ, hstep, if_neg hbreak, if_pos hmatch]
        · have hmc : m < c := by
            rcases Nat.lt_or_ge m c with hlt | hge
            · exact hlt
            · have hmeq : m = c := by omega
              rw [hmeq] at hbreak
              exact absurd (probeIter_cycle c h2 h hh1 (le_of_lt hh2) h21 h22) hbreak
          by_cases hused : (entryAt tbl (probeIter c h2 h m)).used ≠ 0
          · have hrec : probeLoop tbl c h h2 k (probeIter c h2 h (m - 1)) (fuel + 1)
                = probeLoop tbl c h h2 k (probeIter c h2 h m) fuel := by
              rw [probeLoop_succ, hstep, if_neg hbreak, if_neg hmatch, if_pos hused]
            have hprev' : ∀ j, 1 ≤ j → j < m + 1 →
                ¬ ((entryAt tbl (probeIter c h2 h j)).used = h ∧
                    strMatch k (entryAt tbl (probeIter c h2 h j)).str) ∧
                  (entryAt tbl (probeIter c h2 h j)).used ≠ 0 := by
              intro j hj1 hj2
              rcases Nat.lt_or_ge j m with hlt | hge
              · exact hprev j hj1 hlt
              · have : j = m := by omega
                rw [this]
                exact ⟨hmatch, hused⟩
            have hres := ih (m + 1) (by omega) (by omega) (by omega) hprev'
            simp only [Nat.add_sub_cancel] at hres
            rcases hres with ⟨m', hm'1, hm'2, hm'prev, hm'res⟩ | ⟨hall, hres⟩
            · refine Or.inl ⟨m', by omega, hm'2, hm'prev, ?_⟩
              rcases hm'res with ⟨hm, hr⟩ | ⟨hm, hf, hr⟩
              · exact Or.inl ⟨hm, by rw [hrec]; exact hr⟩
              · exact Or.inr ⟨hm, hf, by rw [hrec]; exact hr⟩
            · exact Or.inr ⟨hall, by rw [hrec]; exact hres⟩
          · have hfree : (entryAt tbl (probeIter c h2 h m)).used = 0 := by
              by_contra hne
              exact hused hne
            refine Or.inl ⟨m, le_refl m, hmc, hprev, Or.inr ⟨hmatch, hfree, ?_⟩⟩
            rw [probeLoop_succ, hstep, if_neg hbreak, if_neg hmatch, if_neg hused]

/-! ### Outcomes of the search phase -/

/-- Unfolding of `hashExit`. -/
theorem hashExit_def (tbl : List htab_entry) (c : Nat) (k : List Nat) :
    hashExit tbl c k =
      if (entryAt tbl (tableHash k c)).used ≠ 0 then
        if (entryAt tbl (tableHash k c)).used = tableHash k c ∧
            strMatch k (entryAt tbl (tableHash k c)).str then
          ProbeExit.found (tableHash k c)
        else
          probeLoop tbl c (tableHash k c) (1 + tableHash k c % (c - 2)) k
            (tableHash k c) c
      else ProbeExit.insert (tableHash k c) := rfl

/-- On a prime-sized table, a `found` outcome names a slot in `[1, size]`
whose tag is the key's home hash and whose stored string is the key. -/
theorem hashExit_found (tbl : List htab_entry) (c : Nat) (k : List Nat) (i : Nat)
    (hc : Nat.Prime c) (hc3 : 3 ≤ c)
    (hfe : hashExit tbl c k = ProbeExit.found i) :
    (entryAt tbl i).used = tableHash k c ∧ strMatch k (entryAt tbl i).str ∧
      1 ≤ i ∧ i ≤ c := by
  have hh1 : 1 ≤ tableHash k c := tableHash_pos k c
  have hh2 : tableHash k c < c := tableHash_lt k c (by omega)
  have hb := hval2_bounds (tableHash k c) c hc3
  rw [hashExit_def] at hfe
  by_cases hu : (entryAt tbl (tableHash k c)).used ≠ 0
  · rw [if_pos hu] at hfe
    by_cases hm : (entryAt tbl (tableHash k c)).used = tableHash k c ∧
        strMatch k (entryAt tbl (tableHash k c)).str
    · rw [if_pos hm] at hfe
      have : tableHash k c = i := by
        injection hfe with hx
      rw [← this]
      exact ⟨hm.1, hm.2, by omega, by omega⟩
    · rw [if_neg hm] at hfe
      have hres := probeLoop_spec tbl c (1 + tableHash k c % (c - 2)) (tableHash k c)
        k hc hh1 hh2 hb.1 hb.2 c 1 (by omega) (by omega) (by omega)
        (by intro j hj1 hj2; omega)
      have h0 : probeIter c (1 + tableHash k c % (c - 2)) (tableHash k c) (1 - 1)
          = tableHash k c := rfl
      rw [h0] at hres
      rcases hres with ⟨m', _, hm'c, _, hm'res⟩ | ⟨_, hres⟩
      · have hrange := probeIter_range c (1 + tableHash k c % (c - 2)) (tableHash k c)
          hh1 (by omega) hb.1 hb.2 m'
        rcases hm'res with ⟨hmt, hr⟩ | ⟨_, _, hr⟩
        · rw [hfe] at hr
          have : i = probeIter c (1 + tableHash k c % (c - 2)) (tableHash k c) m' := by
            injection hr with hx
          rw [this]
          exact ⟨hmt.1, hmt.2, hrange.1, hrange.2⟩
        · rw [hfe] at hr
          exact ProbeExit.noConfusion hr.symm
      · rw [hfe] at hres
        exact ProbeExit.noConfusion hres.symm
  · rw [if_neg hu] at hfe
    exact ProbeExit.noConfusion hfe

/-- On a prime-sized table, an `insert` outcome names a slot in `[1, size]`
that is either free or — only when every slot of `[1, size]` is occupied —
the home index itself (the defensive break of the loop). -/
theorem hashExit_insert (tbl : List htab_entry) (c : Nat) (k : List Nat) (i : Nat)
    (hc : Nat.Prime c) (hc3 : 3 ≤ c)
    (hfe : hashExit tbl c k = ProbeExit.insert i) :
    1 ≤ i ∧ i ≤ c ∧ ((entryAt tbl i).used = 0 ∨
      (i = tableHash k c ∧ ∀ j, 1 ≤ j → j ≤ c → (entryAt tbl j).used ≠ 0)) := by
  have hh1 : 1 ≤ tableHash k c := tableHash_pos k c
  have hh2 : tableHash k c < c := tableHash_lt k c (by omega)
  have hb := hval2_bounds (tableHash k c) c hc3
  rw [hashExit_def] at hfe
  by_cases hu : (entryAt tbl (tableHash k c)).used ≠ 0
  · rw [if_pos hu] at hfe
    by_cases hm : (entryAt tbl (tableHash k c)).used = tableHash k c ∧
        strMatch k (entryAt tbl (tableHash k c)).str
    · rw [if_pos hm] at hfe
      exact ProbeExit.noConfusion hfe
    · rw [if_neg hm] at hfe
      have hres := probeLoop_spec tbl c (1 + tableHash k c % (c - 2)) (tableHash k c)
        k hc hh1 hh2 hb.1 hb.2 c 1 (by omega) (by omega) (by omega)
        (by intro j hj1 hj2; omega)
      have h0 : probeIter c (1 + tableHash k c % (c - 2)) (tableHash k c) (1 - 1)
          = tableHash k c := rfl
      rw [h0] at hres
      rcases hres with ⟨m', _, hm'c, _, hm'res⟩ | ⟨hall, hres⟩
      · have hrange := probeIter_range c (1 + tableHash k c % (c - 2)) (tableHash k c)
          hh1 (by omega) hb.1 hb.2 m'
        rcases hm'res with ⟨_, hr⟩ | ⟨_, hfree, hr⟩
        · rw [hfe] at hr
          exact ProbeExit.noConfusion hr.symm
        · rw [hfe] at hr
          have : probeIter c (1 + tableHash k c % (c - 2)) (tableHash k c) m' = i := by
            injection hr with hx
            exact hx.symm
          rw [← this]
          exact ⟨hrange.1, hrange.2, Or.inl hfree⟩
      · rw [hfe] at hres
        have hih : tableHash k c = i := by
          injection hres with hx
          exact hx.symm
        rw [← hih]
        refine ⟨by omega, by omega, Or.inr ⟨rfl, ?_⟩⟩
        intro j hj1 hj2
        obtain ⟨m, hmc, hmj⟩ := probeIter_cover c (1 + tableHash k c % (c - 2))
          (tableHash k c) hc hh1 (by omega) hb.1 hb.2 j hj1 hj2
        rcases Nat.eq_zero_or_pos m with hm0 | hmpos
        · rw [hm0] at hmj
          have : probeIter c (1 + tableHash k c % (c - 2)) (tableHash k c) 0
              = tableHash k c := rfl
          rw [this] at hmj
          rw [← hmj]
          exact hu
        · have := hall m (by omega) hmc
          rw [hmj] at this
          exact this.2
  · rw [if_neg hu] at hfe
    have hih : tableHash k c = i := by
      injection hfe with hx
    rw [← hih]
    have hu0 : (entryAt tbl (tableHash k c)).used = 0 := by
      by_contra hne
      exact hu hne
    exact ⟨by omega, by omega, Or.inl hu0⟩

/-! ### Operation-level lemmas on `htab_hash` -/

/-- Unfolding of `htab_hash` on a live table and non-null key. -/
theorem htab_hash_some (allocOk : Bool) (k : List Nat) (h : htab_table)
    (tbl : List htab_entry) (htab : h.table = some tbl) :
    htab_hash allocOk (some k) (some h) =
      match hashExit tbl h.size k with
      | ProbeExit.found idx => (idx, some h)
      | ProbeExit.insert idx =>
          if h.filled < h.size then
            if allocOk then
              (idx, some ⟨some (tbl.set idx ⟨tableHash k h.size, some k⟩),
                          h.size, h.filled + 1⟩)
            else
              (0, some ⟨some (tbl.set idx ⟨tableHash k h.size, none⟩),
                        h.size, h.filled⟩)
          else (0, some h) := by
  rw [htab_hash, htab]

/-- A `found` search outcome returns the slot with no state change. -/
theorem htab_hash_found (allocOk : Bool) (k : List Nat) (h : htab_table)
    (tbl : List htab_entry) (i : Nat) (htab : h.table = some tbl)
    (hfe : hashExit tbl h.size k = ProbeExit.found i) :
    htab_hash allocOk (some k) (some h) = (i, some h) := by
  rw [htab_hash_some allocOk k h tbl htab, hfe]

/-- An `insert` outcome on a non-full table with a successful allocation
writes the tag and the duplicated key and bumps `filled`. -/
theorem htab_hash_write (k : List Nat) (h : htab_table)
    (tbl : List htab_entry) (i : Nat) (htab : h.table = some tbl)
    (hfe : hashExit tbl h.size k = ProbeExit.insert i)
    (hlt : h.filled < h.size) :
    htab_hash true (some k) (some h) =
      (i, some ⟨some (tbl.set i ⟨tableHash k h.size, some k⟩),
                h.size, h.filled + 1⟩) := by
  rw [htab_hash_some true k h tbl htab, hfe]
  simp [hlt]

/-- An `insert` outcome on a non-full table with a failed key duplication
returns 0 but has already written the tag (`stdfn.c` lines 206-211). -/
theorem htab_hash_alloc_fail (k : List Nat) (h : htab_table)
    (tbl : List htab_entry) (i : Nat) (htab : h.table = some tbl)
    (hfe : hashExit tbl h.size k = ProbeExit.insert i)
    (hlt : h.filled < h.size) :
    htab_hash false (some k) (some h) =
      (0, some ⟨some (tbl.set i ⟨tableHash k h.size, none⟩),
                h.size, h.filled⟩) := by
  rw [htab_hash_some false k h tbl htab, hfe]
  simp [hlt]

/-- An `insert` outcome on a full table is rejected with no state change. -/
theorem htab_hash_full (allocOk : Bool) (k : List Nat) (h : htab_table)
    (tbl : List htab_entry) (i : Nat) (htab : h.table = some tbl)
    (hfe : hashExit tbl h.size k = ProbeExit.insert i)
    (hge : ¬ h.filled < h.size) :
    htab_hash allocOk (some k) (some h) = (0, some h) := by
  rw [htab_hash_some allocOk k h tbl htab, hfe]
  simp [hge]

/-- A slot whose string matches the key witnesses that the key is stored. -/
theorem hasKey_of_match (tbl : List htab_entry) (k : List Nat) (i : Nat)
    (hm : strMatch k (entryAt tbl i).str) : hasKey tbl k := by
  rcases Nat.lt_or_ge i tbl.length with hlt | hge
  · exact ⟨i, hlt, hm⟩
  · rw [entryAt_of_le_length tbl i hge] at hm
    exact Option.noConfusion hm

/-- A free home slot makes the search fall straight through to insertion at
the home index. -/
theorem hashExit_free_home (tbl : List htab_entry) (c : Nat) (k : List Nat)
    (hu : (entryAt tbl (tableHash k c)).used = 0) :
    hashExit tbl c k = ProbeExit.insert (tableHash k c) := by
  rw [hashExit_def, if_neg (by simp [hu])]

/-- On a prime-sized, not-full table that does not hold the key, the search
always finds a free slot in `[1, size]` for insertion. -/
theorem hashExit_no_key (tbl : List htab_entry) (c : Nat) (k : List Nat)
    (hc : Nat.Prime c) (hc3 : 3 ≤ c) (hlen : tbl.length = c + 1)
    (hnk : ¬ hasKey tbl k) (hcnt : usedCount tbl < c) :
    ∃ i, hashExit tbl c k = ProbeExit.insert i ∧ 1 ≤ i ∧ i ≤ c ∧
      (entryAt tbl i).used = 0 := by
  cases hhe : hashExit tbl c k with
  | found i =>
      exfalso
      have := hashExit_found tbl c k i hc hc3 hhe
      exact hnk (hasKey_of_match tbl k i this.2.1)
  | insert i =>
      have hins := hashExit_insert tbl c k i hc hc3 hhe
      rcases hins.2.2 with hfree | ⟨_, hall⟩
      · exact ⟨i, rfl, hins.1, hins.2.1, hfree⟩
      · obtain ⟨j, hj1, hj2, hjf⟩ := exists_free_of_usedCount_lt tbl c hlen hcnt
        exact absurd hjf (hall j hj1 hj2)

/-- On a prime-sized, full table that does not hold the key, the probe cycle
is exhausted and the search falls through at the home index. -/
theorem hashExit_full_nokey (tbl : List htab_entry) (c : Nat) (k : List Nat)
    (hc : Nat.Prime c) (hc3 : 3 ≤ c) (hlen : tbl.length = c + 1)
    (h0 : entryAt tbl 0 = ⟨0, none⟩) (hcnt : c ≤ usedCount tbl)
    (hnk : ¬ hasKey tbl k) :
    hashExit tbl c k = ProbeExit.insert (tableHash k c) := by
  have hall := all_used_of_usedCount tbl c hlen h0 hcnt
  cases hhe : hashExit tbl c k with
  | found i =>
      exfalso
      have := hashExit_found tbl c k i hc hc3 hhe
      exact hnk (hasKey_of_match tbl k i this.2.1)
  | insert i =>
      have hins := hashExit_insert tbl c k i hc hc3 hhe
      rcases hins.2.2 with hfree | ⟨hih, _⟩
      · exact absurd hfree (hall i hins.1 hins.2.1)
      · rw [hih]

/-- On a (degenerate, non-prime) size-1 table the search can only name the
indices 1 and 0. -/
theorem hashExit_one (tbl : List htab_entry) (k : List Nat) :
    hashExit tbl 1 k = ProbeExit.found 1 ∨ hashExit tbl 1 k = ProbeExit.found 0 ∨
    hashExit tbl 1 k = ProbeExit.insert 1 ∨ hashExit tbl 1 k = ProbeExit.insert 0 := by
  rw [hashExit_def, tableHash_one]
  by_cases hu : (entryAt tbl 1).used ≠ 0
  · rw [if_pos hu]
    by_cases hm : (entryAt tbl 1).used = 1 ∧ strMatch k (entryAt tbl 1).str
    · rw [if_pos hm]
      exact Or.inl rfl
    · rw [if_neg hm]
      have h2eq : 1 + 1 % (1 - 2) = 2 := by decide
      rw [h2eq, probeLoop_succ]
      have hps : probeStep 1 2 1 = 0 := rfl
      rw [hps, if_neg (by decide : ¬ (0 = 1))]
      by_cases hm0 : (entryAt tbl 0).used = 1 ∧ strMatch k (entryAt tbl 0).str
      · rw [if_pos hm0]
        exact Or.inr (Or.inl rfl)
      · rw [if_neg hm0]
        by_cases hu0 : (entryAt tbl 0).used ≠ 0
        · rw [if_pos hu0]
          exact Or.inr (Or.inr (Or.inr rfl))
        · rw [if_neg hu0]
          exact Or.inr (Or.inr (Or.inr rfl))
  · rw [if_neg hu]
    exact Or.inr (Or.inr (Or.inl rfl))

/-- Lookup-or-insert of a fresh key on a well-formed, not-full table succeeds:
it returns some free slot index in `[1, size]` and writes the key there. -/
theorem insert_succeeds (s : htab_table) (k : List Nat) (hWF : WF s)
    (hlt : s.filled < s.size) (hnk : ¬ hasKey (theTable s) k) :
    ∃ i, 1 ≤ i ∧ i ≤ s.size ∧ (entryAt (theTable s) i).used = 0 ∧
      htab_hash true (some k) (some s) =
        (i, some ⟨some ((theTable s).set i ⟨tableHash k s.size, some k⟩),
                  s.size, s.filled + 1⟩) := by
  obtain ⟨htab, hlen, hgs, h0, hfc, htags⟩ := hWF
  rcases goodSize_prime s.size hgs with h1 | ⟨hp, h5⟩
  · have hf0 : s.filled = 0 := by omega
    have hcnt : usedCount (theTable s) = 0 := by omega
    have hallfree := all_free_of_usedCount_zero (theTable s) hcnt
    have hhome : (entryAt (theTable s) (tableHash k s.size)).used = 0 := by
      rcases Nat.lt_or_ge (tableHash k s.size) (theTable s).length with hh | hh
      · exact hallfree _ hh
      · rw [entryAt_of_le_length _ _ hh]
    have hfe := hashExit_free_home (theTable s) s.size k hhome
    refine ⟨tableHash k s.size, tableHash_pos k s.size, ?_, hhome,
      htab_hash_write k s (theTable s) (tableHash k s.size) htab hfe hlt⟩
    rw [h1, tableHash_one]
  · obtain ⟨i, hfe, hi1, hi2, hifree⟩ := hashExit_no_key (theTable s) s.size k
      hp (by omega) hlen hnk (by omega)
    exact ⟨i, hi1, hi2, hifree,
      htab_hash_write k s (theTable s) i htab hfe hlt⟩

/-- Writing a fresh key into a free non-zero slot preserves well-formedness. -/
theorem WF_insert (s : htab_table) (k : List Nat) (i : Nat) (hWF : WF s)
    (hi1 : 1 ≤ i) (hi2 : i ≤ s.size)
    (hfree : (entryAt (theTable s) i).used = 0) :
    WF ⟨some ((theTable s).set i ⟨tableHash k s.size, some k⟩),
        s.size, s.filled + 1⟩ := by
  obtain ⟨htab, hlen, hgs, h0, hfc, htags⟩ := hWF
  have hilen : i < (theTable s).length := by omega
  refine ⟨rfl, ?_, hgs, ?_, ?_, ?_⟩
  · show ((theTable s).set i _).length = s.size + 1
    rw [List.length_set]
    exact hlen
  · show entryAt ((theTable s).set i _) 0 = ⟨0, none⟩
    rw [entryAt_set_ne _ _ _ _ (by omega)]
    exact h0
  · show s.filled + 1 = usedCount ((theTable s).set i _)
    rw [usedCount_set_of_free (theTable s) i _ hilen hfree
      (show tableHash k s.size ≠ 0 by have := tableHash_pos k s.size; omega)]
    omega
  · show ∀ j, j < ((theTable s).set i ⟨tableHash k s.size, some k⟩).length →
      (entryAt ((theTable s).set i ⟨tableHash k s.size, some k⟩) j).used
        = tagOf s.size (entryAt ((theTable s).set i ⟨tableHash k s.size, some k⟩) j).str
    intro j hj
    rw [List.length_set] at hj
    by_cases hji : j = i
    · subst hji
      rw [entryAt_set_self _ _ _ hilen]
      rfl
    · rw [entryAt_set_ne _ _ _ _ (fun h => hji h.symm)]
      exact htags j hj

/-- A NULL key returns the sentinel with no state change, whatever the table
looks like (`stdfn.c` line 145). -/
theorem htab_hash_nullkey (a : Bool) (h : htab_table) :
    htab_hash a none (some h) = (0, some h) := by
  rw [htab_hash]
  cases h.table <;> rfl

/-- A handle with no slot array returns the sentinel with no state change
(`stdfn.c` line 145). -/
theorem htab_hash_notable (a : Bool) (s : Option (List Nat)) (h : htab_table)
    (hnone : h.table = none) : htab_hash a s (some h) = (0, some h) := by
  rw [htab_hash, hnone]

/-- Lookup-or-insert with successful allocation preserves well-formedness and
the size. -/
theorem WF_hash_preserve (s : htab_table) (ko : Option (List Nat)) (hWF : WF s) :
    ∃ r s', htab_hash true ko (some s) = (r, some s') ∧ WF s' ∧
      s'.size = s.size := by
  cases ko with
  | none => exact ⟨0, s, htab_hash_nullkey true s, hWF, rfl⟩
  | some k =>
      have hWF' := hWF
      obtain ⟨htab, hlen, hgs, h0, hfc, htags⟩ := hWF'
      cases hhe : hashExit (theTable s) s.size k with
      | found i =>
          exact ⟨i, s, htab_hash_found true k s (theTable s) i htab hhe, hWF, rfl⟩
      | insert i =>
          by_cases hlt : s.filled < s.size
          · have hwrite := htab_hash_write k s (theTable s) i htab hhe hlt
            have hbounds : 1 ≤ i ∧ i ≤ s.size ∧ (entryAt (theTable s) i).used = 0 := by
              rcases goodSize_prime s.size hgs with h1 | ⟨hp, h5⟩
              · have hf0 : s.filled = 0 := by omega
                have hcnt : usedCount (theTable s) = 0 := by omega
                have hallfree := all_free_of_usedCount_zero (theTable s) hcnt
                have hhome : (entryAt (theTable s) (tableHash k s.size)).used = 0 := by
                  rcases Nat.lt_or_ge (tableHash k s.size) (theTable s).length with hh | hh
                  · exact hallfree _ hh
                  · rw [entryAt_of_le_length _ _ hh]
                have hfe := hashExit_free_home (theTable s) s.size k hhome
                rw [hhe] at hfe
                have hie : i = tableHash k s.size := by
                  injection hfe with hx
                rw [hie, h1, tableHash_one]
                rw [h1, tableHash_one] at hhome
                exact ⟨by omega, by omega, hhome⟩
              · have hins := hashExit_insert (theTable s) s.size k i hp (by omega) hhe
                rcases hins.2.2 with hfree | ⟨_, hall⟩
                · exact ⟨hins.1, hins.2.1, hfree⟩
                · exfalso
                  obtain ⟨j, hj1, hj2, hjf⟩ :=
                    exists_free_of_usedCount_lt (theTable s) s.size hlen (by omega)
                  exact absurd hjf (hall j hj1 hj2)
            refine ⟨i, _, hwrite, ?_, rfl⟩
            exact WF_insert s k i hWF hbounds.1 hbounds.2.1 hbounds.2.2
          · exact ⟨0, s, htab_hash_full true k s (theTable s) i htab hhe hlt, hWF, rfl⟩

/-- Lookup-or-insert of a fresh key on a well-formed full table fails with the
sentinel 0 and no state change. -/
theorem full_miss (a : Bool) (s : htab_table) (k : List Nat) (hWF : WF s)
    (hfull : s.filled = s.size) (hnk : ¬ hasKey (theTable s) k) :
    htab_hash a (some k) (some s) = (0, some s) := by
  obtain ⟨htab, hlen, hgs, h0, hfc, htags⟩ := hWF
  rcases goodSize_prime s.size hgs with h1 | ⟨hp, h5⟩
  · have hlen1 : (theTable s).length = 1 + 1 := by omega
    have hall := all_used_of_usedCount (theTable s) 1 hlen1 h0 (by omega)
    have hfe : hashExit (theTable s) s.size k = ProbeExit.insert 0 := by
      rw [h1, hashExit_def, tableHash_one]
      rw [if_pos (hall 1 (le_refl 1) (le_refl 1))]
      rw [if_neg (fun hm => hnk (hasKey_of_match _ _ _ hm.2))]
      have h2eq : 1 + 1 % (1 - 2) = 2 := by decide
      rw [h2eq, probeLoop_succ]
      have hps : probeStep 1 2 1 = 0 := rfl
      rw [hps, if_neg (by decide : ¬ ((0:Nat) = 1))]
      rw [if_neg (by rw [h0]; simp : ¬ ((entryAt (theTable s) 0).used = 1 ∧
        strMatch k (entryAt (theTable s) 0).str))]
      rw [if_neg (by rw [h0]; simp : ¬ ((entryAt (theTable s) 0).used ≠ 0))]
    exact htab_hash_full a k s (theTable s) 0 htab hfe (by omega)
  · have hfe := hashExit_full_nokey (theTable s) s.size k hp (by omega) hlen h0
      (by omega) hnk
    exact htab_hash_full a k s (theTable s) _ htab hfe (by omega)

/-- Any single lookup-or-insert keeps the size and raises `filled` by at most
one, and only under the not-full guard (`stdfn.c` line 201). -/
theorem hash_step_shape (a : Bool) (ko : Option (List Nat)) (s : htab_table) :
    ∃ r s', htab_hash a ko (some s) = (r, some s') ∧ s'.size = s.size ∧
      (s'.filled = s.filled ∨ (s.filled < s.size ∧ s'.filled = s.filled + 1)) := by
  cases ko with
  | none => exact ⟨0, s, htab_hash_nullkey a s, rfl, Or.inl rfl⟩
  | some k =>
      cases hh : s.table with
      | none => exact ⟨0, s, htab_hash_notable a _ s hh, rfl, Or.inl rfl⟩
      | some tbl =>
          cases hhe : hashExit tbl s.size k with
          | found i =>
              exact ⟨i, s, htab_hash_found a k s tbl i hh hhe, rfl, Or.inl rfl⟩
          | insert i =>
              by_cases hlt : s.filled < s.size
              · cases a with
                | true =>
                    exact ⟨i, _, htab_hash_write k s tbl i hh hhe hlt, rfl,
                      Or.inr ⟨hlt, rfl⟩⟩
                | false =>
                    exact ⟨0, _, htab_hash_alloc_fail k s tbl i hh hhe hlt, rfl,
                      Or.inl rfl⟩
              · exact ⟨0, s, htab_hash_full a k s tbl i hh hhe hlt, rfl, Or.inl rfl⟩

/-- On any table of a size `htab_create` can produce, a non-zero returned
index lies in `[1, size]`. -/
theorem hash_result_range (a : Bool) (k : List Nat) (s : htab_table) (r : Nat)
    (s2 : Option htab_table) (hgs : goodSize s.size)
    (hres : htab_hash a (some k) (some s) = (r, s2)) (hr : r ≠ 0) :
    1 ≤ r ∧ r ≤ s.size := by
  cases hh : s.table with
  | none =>
      rw [htab_hash_notable a _ s hh] at hres
      exact absurd (congrArg Prod.fst hres).symm hr
  | some tbl =>
      rcases goodSize_prime s.size hgs with h1 | ⟨hp, h5⟩
      · rcases hashExit_one tbl k with hfe | hfe | hfe | hfe
        · have hfe' : hashExit tbl s.size k = ProbeExit.found 1 := by
            rw [h1]; exact hfe
          rw [htab_hash_found a k s tbl 1 hh hfe'] at hres
          have : r = 1 := (congrArg Prod.fst hres).symm
          omega
        · have hfe' : hashExit tbl s.size k = ProbeExit.found 0 := by
            rw [h1]; exact hfe
          rw [htab_hash_found a k s tbl 0 hh hfe'] at hres
          have : r = 0 := (congrArg Prod.fst hres).symm
          omega
        · have hfe' : hashExit tbl s.size k = ProbeExit.insert 1 := by
            rw [h1]; exact hfe
          by_cases hlt : s.filled < s.size
          · cases a with
            | true =>
                rw [htab_hash_write k s tbl 1 hh hfe' hlt] at hres
                have : r = 1 := (congrArg Prod.fst hres).symm
                omega
            | false =>
                rw [htab_hash_alloc_fail k s tbl 1 hh hfe' hlt] at hres
                have : r = 0 := (congrArg Prod.fst hres).symm
                omega
          · rw [htab_hash_full a k s tbl 1 hh hfe' hlt] at hres
            have : r = 0 := (congrArg Prod.fst hres).symm
            omega
        · have hfe' : hashExit tbl s.size k = ProbeExit.insert 0 := by
            rw [h1]; exact hfe
          by_cases hlt : s.filled < s.size
          · cases a with
            | true =>
                rw [htab_hash_write k s tbl 0 hh hfe' hlt] at hres
                have : r = 0 := (congrArg Prod.fst hres).symm
                omega
            | false =>
                rw [htab_hash_alloc_fail k s tbl 0 hh hfe' hlt] at hres
                have : r = 0 := (congrArg Prod.fst hres).symm
                omega
          · rw [htab_hash_full a k s tbl 0 hh hfe' hlt] at hres
            have : r = 0 := (congrArg Prod.fst hres).symm
            omega
      · cases hhe : hashExit tbl s.size k with
        | found i =>
            have hb := hashExit_found tbl s.size k i hp (by omega) hhe
            rw [htab_hash_found a k s tbl i hh hhe] at hres
            have : r = i := (congrArg Prod.fst hres).symm
            omega
        | insert i =>
            have hb := hashExit_insert tbl s.size k i hp (by omega) hhe
            by_cases hlt : s.filled < s.size
            · cases a with
              | true =>
                  rw [htab_hash_write k s tbl i hh hhe hlt] at hres
                  have : r = i := (congrArg Prod.fst hres).symm
                  omega
              | false =>
                  rw [htab_hash_alloc_fail k s tbl i hh hhe hlt] at hres
                  have : r = 0 := (congrArg Prod.fst hres).symm
                  omega
            · rw [htab_hash_full a k s tbl i hh hhe hlt] at hres
              have : r = 0 := (congrArg Prod.fst hres).symm
              omega

/-- A home slot holding the key is returned immediately. -/
theorem hashExit_found_home (tbl : List htab_entry) (c : Nat) (k : List Nat)
    (hm : (entryAt tbl (tableHash k c)).used = tableHash k c ∧
      strMatch k (entryAt tbl (tableHash k c)).str) :
    hashExit tbl c k = ProbeExit.found (tableHash k c) := by
  rw [hashExit_def]
  rw [if_pos (by have := tableHash_pos k c; omega)]
  rw [if_pos hm]

/-- Calling lookup-or-insert twice with the same key on a well-formed
not-full table returns the same index both times, and the second call does
not change the state at all. -/
theorem idempotent_pair (s : htab_table) (k : List Nat) (hWF : WF s)
    (hlt : s.filled < s.size) :
    ∃ i s1, htab_hash true (some k) (some s) = (i, some s1) ∧
      htab_hash true (some k) (some s1) = (i, some s1) ∧
      s1.filled ≤ s.filled + 1 ∧ s1.size = s.size := by
  have hWFc := hWF
  obtain ⟨htab, hlen, hgs, h0, hfc, htags⟩ := hWFc
  by_cases hu : (entryAt (theTable s) (tableHash k s.size)).used ≠ 0
  · -- home occupied
    rcases goodSize_prime s.size hgs with h1 | ⟨hp, h5⟩
    · -- size 1, not full means empty: the home slot cannot be occupied
      exfalso
      have hcnt : usedCount (theTable s) = 0 := by omega
      have hallfree := all_free_of_usedCount_zero (theTable s) hcnt
      rcases Nat.lt_or_ge (tableHash k s.size) (theTable s).length with hh | hh
      · exact hu (hallfree _ hh)
      · rw [entryAt_of_le_length _ _ hh] at hu
        exact hu rfl
    · by_cases hm : (entryAt (theTable s) (tableHash k s.size)).used
          = tableHash k s.size ∧ strMatch k (entryAt (theTable s) (tableHash k s.size)).str
      · -- home match: found, no state change, second call identical
        have hfe := hashExit_found_home (theTable s) s.size k hm
        refine ⟨tableHash k s.size, s, htab_hash_found true k s (theTable s) _ htab hfe,
          htab_hash_found true k s (theTable s) _ htab hfe, by omega, rfl⟩
      · -- collision: run the probe loop
        have hh1 : 1 ≤ tableHash k s.size := tableHash_pos k s.size
        have hh2 : tableHash k s.size < s.size := tableHash_lt k s.size (by omega)
        have hb := hval2_bounds (tableHash k s.size) s.size (by omega)
        have hres := probeLoop_spec (theTable s) s.size
          (1 + tableHash k s.size % (s.size - 2)) (tableHash k s.size) k hp hh1 hh2
          hb.1 hb.2 s.size 1 (by omega) (by omega) (by omega)
          (by intro j hj1 hj2; omega)
        have h0it : probeIter s.size (1 + tableHash k s.size % (s.size - 2))
            (tableHash k s.size) (1 - 1) = tableHash k s.size := rfl
        rw [h0it] at hres
        have hfe_eq : hashExit (theTable s) s.size k
            = probeLoop (theTable s) s.size (tableHash k s.size)
              (1 + tableHash k s.size % (s.size - 2)) k (tableHash k s.size) s.size := by
          rw [hashExit_def, if_pos hu, if_neg hm]
        rcases hres with ⟨m', hm'1, hm'c, hprev, hres⟩ | ⟨hall, hres⟩
        · have hrange := probeIter_range s.size
            (1 + tableHash k s.size % (s.size - 2)) (tableHash k s.size)
            hh1 (by omega) hb.1 hb.2 m'
          have hne_home := probeIter_ne s.size
            (1 + tableHash k s.size % (s.size - 2)) (tableHash k s.size)
            hp hh1 (by omega) hb.1 hb.2 m' hm'1 hm'c
          rcases hres with ⟨hmt, hloop⟩ | ⟨hmt, hfree, hloop⟩
          · -- found at probe m': no state change, second call identical
            have hfe : hashExit (theTable s) s.size k = ProbeExit.found
                (probeIter s.size (1 + tableHash k s.size % (s.size - 2))
                  (tableHash k s.size) m') := by rw [hfe_eq, hloop]
            refine ⟨_, s, htab_hash_found true k s (theTable s) _ htab hfe,
              htab_hash_found true k s (theTable s) _ htab hfe, by omega, rfl⟩
          · -- free slot at probe m': insert there, then the second call probes
            -- the same prefix and finds the key at probe m'
            have hfe : hashExit (theTable s) s.size k = ProbeExit.insert
                (probeIter s.size (1 + tableHash k s.size % (s.size - 2))
                  (tableHash k s.size) m') := by rw [hfe_eq, hloop]
            have hwrite := htab_hash_write k s (theTable s) _ htab hfe hlt
            refine ⟨_, _, hwrite, ?_, le_refl _, rfl⟩
            -- the second call
            have hilen : probeIter s.size (1 + tableHash k s.size % (s.size - 2))
                (tableHash k s.size) m' < (theTable s).length := by omega
            have htbl' : (⟨some ((theTable s).set
                (probeIter s.size (1 + tableHash k s.size % (s.size - 2))
                  (tableHash k s.size) m') ⟨tableHash k s.size, some k⟩),
                s.size, s.filled + 1⟩ : htab_table).table
                = some ((theTable s).set
                (probeIter s.size (1 + tableHash k s.size % (s.size - 2))
                  (tableHash k s.size) m') ⟨tableHash k s.size, some k⟩) := rfl
            have hsame : ∀ j, j ≠ probeIter s.size
                (1 + tableHash k s.size % (s.size - 2)) (tableHash k s.size) m' →
                entryAt ((theTable s).set
                  (probeIter s.size (1 + tableHash k s.size % (s.size - 2))
                    (tableHash k s.size) m') ⟨tableHash k s.size, some k⟩) j
                  = entryAt (theTable s) j := by
              intro j hj
              exact entryAt_set_ne _ _ _ _ (fun h => hj h.symm)
            have hself : entryAt ((theTable s).set
                (probeIter s.size (1 + tableHash k s.size % (s.size - 2))
                  (tableHash k s.size) m') ⟨tableHash k s.size, some k⟩)
                (probeIter s.size (1 + tableHash k s.size % (s.size - 2))
                  (tableHash k s.size) m') = ⟨tableHash k s.size, some k⟩ :=
              entryAt_set_self _ _ _ hilen
            have hu' : (entryAt ((theTable s).set
                (probeIter s.size (1 + tableHash k s.size % (s.size - 2))
                  (tableHash k s.size) m') ⟨tableHash k s.size, some k⟩)
                (tableHash k s.size)).used ≠ 0 := by
              rw [hsame _ (fun h => hne_home h.symm)]
              exact hu
            have hm' : ¬ ((entryAt ((theTable s).set
                (probeIter s.size (1 + tableHash k s.size % (s.size - 2))
                  (tableHash k s.size) m') ⟨tableHash k s.size, some k⟩)
                (tableHash k s.size)).used = tableHash k s.size ∧
                strMatch k (entryAt ((theTable s).set
                  (probeIter s.size (1 + tableHash k s.size % (s.size - 2))
                    (tableHash k s.size) m') ⟨tableHash k s.size, some k⟩)
                  (tableHash k s.size)).str) := by
              rw [hsame _ (fun h => hne_home h.symm)]
              exact hm
            have hres' := probeLoop_spec ((theTable s).set
                (probeIter s.size (1 + tableHash k s.size % (s.size - 2))
                  (tableHash k s.size) m') ⟨tableHash k s.size, some k⟩) s.size
              (1 + tableHash k s.size % (s.size - 2)) (tableHash k s.size) k hp hh1 hh2
              hb.1 hb.2 s.size 1 (by omega) (by omega) (by omega)
              (by intro j hj1 hj2; omega)
            rw [h0it] at hres'
            have hmatch' : (entryAt ((theTable s).set
                (probeIter s.size (1 + tableHash k s.size % (s.size - 2))
                  (tableHash k s.size) m') ⟨tableHash k s.size, some k⟩)
                (probeIter s.size (1 + tableHash k s.size % (s.size - 2))
                  (tableHash k s.size) m')).used = tableHash k s.size ∧
                strMatch k (entryAt ((theTable s).set
                  (probeIter s.size (1 + tableHash k s.size % (s.size - 2))
                    (tableHash k s.size) m') ⟨tableHash k s.size, some k⟩)
                  (probeIter s.size (1 + tableHash k s.size % (s.size - 2))
                    (tableHash k s.size) m')).str := by
              rw [hself]
              exact ⟨rfl, rfl⟩
            rcases hres' with ⟨m'', hm''1, hm''c, hprev', hres''⟩ | ⟨hall', _⟩
            · have hmmeq : m'' = m' := by
                by_contra hne
                rcases Nat.lt_or_ge m'' m' with hlt' | hge'
                · -- m'' < m': slot unchanged there, occupied and unmatched in
                  -- the first run, contradicting a stop at m''
                  have hpj := hprev m'' hm''1 hlt'
                  have hne_im'' : probeIter s.size
                      (1 + tableHash k s.size % (s.size - 2)) (tableHash k s.size) m''
                      ≠ probeIter s.size (1 + tableHash k s.size % (s.size - 2))
                        (tableHash k s.size) m' := by
                    intro he
                    exact hne (probeIter_inj s.size _ _ hp hh1 (by omega) hb.1 hb.2
                      m'' m' (by omega) hm'c he)
                  rcases hres'' with ⟨hmt'', _⟩ | ⟨_, hfree'', _⟩
                  · rw [hsame _ hne_im''] at hmt''
                    exact hpj.1 hmt''
                  · rw [hsame _ hne_im''] at hfree''
                    exact hpj.2 hfree''
                · -- m' < m'': the second run claims no stop before m'', but the
                  -- written slot at m' is a match
                  have hpj := hprev' m' hm'1 (by omega)
                  exact hpj.1 hmatch'
              rcases hres'' with ⟨_, hloop'⟩ | ⟨hnm'', _, _⟩
              · rw [hmmeq] at hloop'
                have hfe' : hashExit ((theTable s).set
                    (probeIter s.size (1 + tableHash k s.size % (s.size - 2))
                      (tableHash k s.size) m') ⟨tableHash k s.size, some k⟩) s.size k
                    = ProbeExit.found (probeIter s.size
                      (1 + tableHash k s.size % (s.size - 2)) (tableHash k s.size) m') := by
                  rw [hashExit_def, if_pos hu', if_neg hm', hloop']
                exact htab_hash_found true k _ _ _ htbl' hfe'
              · rw [hmmeq] at hnm''
                exact absurd hmatch' hnm''
            · exact absurd hmatch' (hall' m' hm'1 hm'c).1
        · -- probe exhausted: every slot occupied, contradicting not-full
          exfalso
          obtain ⟨j, hj1, hj2, hjf⟩ := exists_free_of_usedCount_lt (theTable s)
            s.size hlen (by omega)
          obtain ⟨m, hmc, hmj⟩ := probeIter_cover s.size
            (1 + tableHash k s.size % (s.size - 2)) (tableHash k s.size)
            hp hh1 (by omega) hb.1 hb.2 j hj1 hj2
          rcases Nat.eq_zero_or_pos m with hm0 | hmpos
          · rw [hm0] at hmj
            have : probeIter s.size (1 + tableHash k s.size % (s.size - 2))
                (tableHash k s.size) 0 = tableHash k s.size := rfl
            rw [this] at hmj
            rw [← hmj] at hjf
            exact hu hjf
          · have := hall m (by omega) hmc
            rw [hmj] at this
            exact this.2 hjf
  · -- home slot free: insert at home, second call finds it there
    have hu0 : (entryAt (theTable s) (tableHash k s.size)).used = 0 := by
      by_contra hne
      exact hu hne
    have hfe := hashExit_free_home (theTable s) s.size k hu0
    have hwrite := htab_hash_write k s (theTable s) _ htab hfe hlt
    refine ⟨_, _, hwrite, ?_, le_refl _, rfl⟩
    have hh1 : 1 ≤ tableHash k s.size := tableHash_pos k s.size
    have hhlt : tableHash k s.size < (theTable s).length := by
      rcases goodSize_prime s.size hgs with h1 | ⟨hp, h5⟩
      · rw [h1, tableHash_one]
        omega
      · have := tableHash_lt k s.size (by omega)
        omega
    have htbl' : (⟨some ((theTable s).set (tableHash k s.size)
        ⟨tableHash k s.size, some k⟩), s.size, s.filled + 1⟩ : htab_table).table
        = some ((theTable s).set (tableHash k s.size)
          ⟨tableHash k s.size, some k⟩) := rfl
    have hself : entryAt ((theTable s).set (tableHash k s.size)
        ⟨tableHash k s.size, some k⟩) (tableHash k s.size)
        = ⟨tableHash k s.size, some k⟩ := entryAt_set_self _ _ _ hhlt
    have hfe' : hashExit ((theTable s).set (tableHash k s.size)
        ⟨tableHash k s.size, some k⟩) s.size k
        = ProbeExit.found (tableHash k s.size) := by
      apply hashExit_found_home
      rw [hself]
      exact ⟨rfl, rfl⟩
    exact htab_hash_found true k _ _ _ htbl' hfe'

/-- A well-formed empty table stores no key. -/
theorem no_keys_of_empty (s : htab_table) (hWF : WF s) (hf : s.filled = 0) :
    ∀ k, ¬ hasKey (theTable s) k := by
  obtain ⟨htab, hlen, hgs, h0, hfc, htags⟩ := hWF
  rintro k ⟨j, hjl, hjs⟩
  have hfree := all_free_of_usedCount_zero (theTable s) (by omega) j hjl
  have htag := htags j hjl
  rw [hfree, hjs] at htag
  have hth : tagOf s.size (some k) = tableHash k s.size := rfl
  have := tableHash_pos k s.size
  omega

/-- Applying any sequence of lookup-or-inserts with successful allocations to
a well-formed table keeps it well-formed (and the size fixed). -/
theorem WF_applyOps : ∀ (ops : List (Option (List Nat))) (s : htab_table), WF s →
    ∃ s', applyOps (ops.map (fun k => (true, k))) (some s) = some s' ∧ WF s' ∧
      s'.size = s.size := by
  intro ops
  induction ops with
  | nil => exact fun s hWF => ⟨s, rfl, hWF, rfl⟩
  | cons k ks ih =>
      intro s hWF
      obtain ⟨r, s1, hstep, hWF1, hsz1⟩ := WF_hash_preserve s k hWF
      have heq : applyOps ((k :: ks).map (fun k => (true, k))) (some s)
          = applyOps (ks.map (fun k => (true, k))) ((htab_hash true k (some s)).2) := rfl
      obtain ⟨s', hap, hWF', hsz⟩ := ih s1 hWF1
      refine ⟨s', ?_, hWF', by omega⟩
      rw [heq, hstep]
      exact hap

/-- `filled` never exceeds `size` along any sequence of operations, with any
mix of allocation successes and failures and NULL keys. -/
theorem applyOps_filled : ∀ (ops : List (Bool × Option (List Nat))) (s : htab_table),
    s.filled ≤ s.size →
    ∃ s', applyOps ops (some s) = some s' ∧ s'.filled ≤ s'.size ∧
      s'.size = s.size := by
  intro ops
  induction ops with
  | nil => exact fun s hle => ⟨s, rfl, hle, rfl⟩
  | cons op ops ih =>
      intro s hle
      obtain ⟨r, s1, hstep, hsz, hfil⟩ := hash_step_shape op.1 op.2 s
      have heq : applyOps (op :: ops) (some s)
          = applyOps ops ((htab_hash op.1 op.2 (some s)).2) := rfl
      obtain ⟨s', hap, hle', hsz'⟩ := ih s1 (by omega)
      refine ⟨s', ?_, hle', by omega⟩
      rw [heq, hstep]
      exact hap

/-- Inserting a list of fresh pairwise-distinct keys (all allocations
succeeding) into a well-formed table with enough room succeeds throughout:
every returned index is non-zero, `filled` grows by exactly the number of
keys, and the stored keys grow by exactly the inserted ones. -/
theorem insertList_spec : ∀ (ks : List (List Nat)) (s : htab_table), WF s →
    (∀ k' ∈ ks, ¬ hasKey (theTable s) k') → ks.Nodup →
    s.filled + ks.length ≤ s.size →
    ∃ s', (insertList ks (some s)).2 = some s' ∧ WF s' ∧
      s'.size = s.size ∧ s'.filled = s.filled + ks.length ∧
      (∀ r ∈ (insertList ks (some s)).1, r ≠ 0) ∧
      (∀ k', hasKey (theTable s') k' → k' ∈ ks ∨ hasKey (theTable s) k') := by
  intro ks
  induction ks with
  | nil =>
      intro s hWF _ _ _
      exact ⟨s, rfl, hWF, rfl, by simp [insertList], by simp [insertList],
        fun k' h => Or.inr h⟩
  | cons k ks ih =>
      intro s hWF hnk hnd hbound
      obtain ⟨i, hi1, hi2, hifree, hstep⟩ := insert_succeeds s k hWF (by
        have := List.length_cons k ks
        omega) (hnk k (by simp))
      have hWF1 : WF ⟨some ((theTable s).set i ⟨tableHash k s.size, some k⟩),
          s.size, s.filled + 1⟩ := WF_insert s k i hWF hi1 hi2 hifree
      have hf1 : (⟨some ((theTable s).set i ⟨tableHash k s.size, some k⟩),
          s.size, s.filled + 1⟩ : htab_table).filled = s.filled + 1 := rfl
      have hs1 : (⟨some ((theTable s).set i ⟨tableHash k s.size, some k⟩),
          s.size, s.filled + 1⟩ : htab_table).size = s.size := rfl
      have hkeys1 : ∀ k', hasKey (theTable ⟨some ((theTable s).set i
          ⟨tableHash k s.size, some k⟩), s.size, s.filled + 1⟩) k' →
          k' = k ∨ hasKey (theTable s) k' := by
        rintro k' ⟨j, hjl, hjs⟩
        have hjl' : j < (theTable s).length := by
          have : (theTable ⟨some ((theTable s).set i ⟨tableHash k s.size, some k⟩),
              s.size, s.filled + 1⟩) = (theTable s).set i ⟨tableHash k s.size, some k⟩ := rfl
          rw [this, List.length_set] at hjl
          exact hjl
        by_cases hji : j = i
        · subst hji
          have hset : entryAt ((theTable s).set j ⟨tableHash k s.size, some k⟩) j
              = ⟨tableHash k s.size, some k⟩ := entryAt_set_self _ _ _ hjl'
          have : (some k : Option (List Nat)) = some k' := by
            rw [show entryAt (theTable ⟨some ((theTable s).set j
              ⟨tableHash k s.size, some k⟩), s.size, s.filled + 1⟩) j
              = entryAt ((theTable s).set j ⟨tableHash k s.size, some k⟩) j from rfl,
              hset] at hjs
            exact hjs
          left
          injection this with hx
          exact hx.symm
        · right
          refine ⟨j, hjl', ?_⟩
          rw [show entryAt (theTable ⟨some ((theTable s).set i
            ⟨tableHash k s.size, some k⟩), s.size, s.filled + 1⟩) j
            = entryAt ((theTable s).set i ⟨tableHash k s.size, some k⟩) j from rfl,
            entryAt_set_ne _ _ _ _ (fun h => hji h.symm)] at hjs
          exact hjs
      have hnk1 : ∀ k' ∈ ks, ¬ hasKey (theTable ⟨some ((theTable s).set i
          ⟨tableHash k s.size, some k⟩), s.size, s.filled + 1⟩) k' := by
        intro k' hk' hhk
        rcases hkeys1 k' hhk with he | hh
        · rw [he] at hk'
          exact (List.nodup_cons.mp hnd).1 hk'
        · exact hnk k' (List.mem_cons_of_mem k hk') hh
      obtain ⟨s', hap, hWF', hsz, hfl, hnz, hkeys⟩ := ih _ hWF1 hnk1
        (List.nodup_cons.mp hnd).2 (by
          have : (k :: ks).length = ks.length + 1 := List.length_cons k ks
          omega)
      have heq2 : (insertList (k :: ks) (some s)).2
          = (insertList ks ((htab_hash true (some k) (some s)).2)).2 := rfl
      have heq1 : (insertList (k :: ks) (some s)).1
          = (htab_hash true (some k) (some s)).1
            :: (insertList ks ((htab_hash true (some k) (some s)).2)).1 := rfl
      refine ⟨s', ?_, hWF', by omega, ?_, ?_, ?_⟩
      · rw [heq2, hstep]
        exact hap
      · rw [hfl]
        have : (k :: ks).length = ks.length + 1 := List.length_cons k ks
        omega
      · intro r hr
        rw [heq1, hstep] at hr
        rcases List.mem_cons.mp hr with he | hm
        · omega
        · exact hnz r hm
      · intro k' hk'
        rcases hkeys k' hk' with hin | hh
        · exact Or.inl (List.mem_cons_of_mem k hin)
        · rcases hkeys1 k' hh with he | hh'
          · exact Or.inl (by rw [he]; exact List.mem_cons_self k ks)
          · exact Or.inr hh'

/-- On a prime-sized table the probe loop gives the same answer with any fuel
of at least `size`: the loop finishes within `size` iterations. -/
theorem probeLoop_fuel_irrel (tbl : List htab_entry) (c h2v h : Nat) (k : List Nat)
    (hc : Nat.Prime c) (hh1 : 1 ≤ h) (hh2 : h < c) (h21 : 1 ≤ h2v) (h22 : h2v + 2 ≤ c)
    (fuel : Nat) (hfuel : c ≤ fuel) :
    probeLoop tbl c h h2v k h fuel = probeLoop tbl c h h2v k h c := by
  have hA := probeLoop_spec tbl c h2v h k hc hh1 hh2 h21 h22 fuel 1 (by omega)
    (by omega) (by omega) (by intro j hj1 hj2; omega)
  have hB := probeLoop_spec tbl c h2v h k hc hh1 hh2 h21 h22 c 1 (by omega)
    (by omega) (by omega) (by intro j hj1 hj2; omega)
  have h0it : probeIter c h2v h (1 - 1) = h := rfl
  rw [h0it] at hA hB
  rcases hA with ⟨ma, hma1, hmac, hpreva, hresa⟩ | ⟨halla, hresa⟩
  · rcases hB with ⟨mb, hmb1, hmbc, hprevb, hresb⟩ | ⟨hallb, hresb⟩
    · have hab : ma = mb := by
        by_contra hne
        rcases Nat.lt_or_ge ma mb with hlt | hge
        · have hp := hprevb ma hma1 hlt
          rcases hresa with ⟨hmt, _⟩ | ⟨_, hfree, _⟩
          · exact hp.1 hmt
          · exact hp.2 hfree
        · have hp := hpreva mb hmb1 (by omega)
          rcases hresb with ⟨hmt, _⟩ | ⟨_, hfree, _⟩
          · exact hp.1 hmt
          · exact hp.2 hfree
      subst hab
      rcases hresa with ⟨hmta, hla⟩ | ⟨hmta, _, hla⟩ <;>
        rcases hresb with ⟨hmtb, hlb⟩ | ⟨hmtb, _, hlb⟩
      · rw [hla, hlb]
      · exact absurd hmta hmtb
      · exact absurd hmtb hmta
      · rw [hla, hlb]
    · exfalso
      have hp := hallb ma hma1 hmac
      rcases hresa with ⟨hmt, _⟩ | ⟨_, hfree, _⟩
      · exact hp.1 hmt
      · exact hp.2 hfree
  · rcases hB with ⟨mb, hmb1, hmbc, hprevb, hresb⟩ | ⟨hallb, hresb⟩
    · exfalso
      have hp := halla mb hmb1 hmbc
      rcases hresb with ⟨hmt, _⟩ | ⟨_, hfree, _⟩
      · exact hp.1 hmt
      · exact hp.2 hfree
    · rw [hresa, hresb]

/-! ### The claims -/

/-- C1: the claim says Create(n) for n ≥ 1 yields as capacity the smallest odd
prime ≥ (n | 1), an odd prime ≥ n and ≥ 3.  The code contradicts this at its
own boundary: `isprime` wrongly rejects 3 (it tests `3 % 3`) and wrongly
accepts 1, so Create(3) produces capacity 5 (skipping the prime 3) and
Create(1) produces capacity 1, which is not a prime and not ≥ 3, against the
code's own comment "Change nel to the first prime number not smaller as nel".
This theorem evaluates the code at both failing inputs. -/
theorem claim_C1 :
    htab_create true 3 (some ⟨none, 0, 0⟩)
      = (true, some ⟨some (List.replicate 6 ⟨0, none⟩), 5, 0⟩) ∧
    htab_create true 1 (some ⟨none, 0, 0⟩)
      = (true, some ⟨some (List.replicate 2 ⟨0, none⟩), 1, 0⟩) ∧
    isprime 3 = false ∧ isprime 1 = true ∧
    Nat.Prime 3 ∧ ¬ Nat.Prime 1 := by
  refine ⟨by decide, by decide, by decide, by decide, by decide, by decide⟩

/-- C2: the claim says that when key duplication fails during an insert, the
operation returns 0 and the target slot remains unoccupied with its tag still
zero.  The code does return 0 and leave `filled` unchanged, but it stores the
tag *before* the failing `malloc` (`stdfn.c` lines 207-211) and never resets
it, so the slot is left with a non-zero tag and no stored key.  This theorem
evaluates the code at a failing input: empty size-5 table, key `[1]`,
allocation failure — afterwards slot 1 has tag 1 ≠ 0 and no key. -/
theorem claim_C2 :
    htab_hash false (some [1]) (some ⟨some (List.replicate 6 ⟨0, none⟩), 5, 0⟩)
      = (0, some ⟨some ((List.replicate 6 (⟨0, none⟩ : htab_entry)).set 1 ⟨1, none⟩),
                  5, 0⟩) ∧
    (entryAt ((List.replicate 6 (⟨0, none⟩ : htab_entry)).set 1 ⟨1, none⟩) 1).used = 1 ∧
    (entryAt ((List.replicate 6 (⟨0, none⟩ : htab_entry)).set 1 ⟨1, none⟩) 1).str
      = none := by
  refine ⟨by decide, by decide, by decide⟩

/-- C3: for a prime capacity `c ≥ 3` and a home index `hval ∈ [1, c-1]`, the
secondary step `hval2 = 1 + hval % (c - 2)` lies in `[1, c-2]`, the probe
sequence visits every index of `[1, c]` exactly once (injective over the
first `c` steps, covering all of `[1, c]`) before returning to `hval` at step
`c`; hence the probe loop gives the same result with any fuel ≥ `c` (it
terminates within `c` iterations), and it exits unsuccessfully back at the
start index only when all `c` probeable slots are occupied, which under the
`filled`-counts-occupied-slots invariant means `filled = capacity`. -/
theorem claim_C3 (c hval : Nat) (hc : Nat.Prime c) (hc3 : 3 ≤ c)
    (hh1 : 1 ≤ hval) (hh2 : hval ≤ c - 1) :
    (1 ≤ 1 + hval % (c - 2) ∧ 1 + hval % (c - 2) ≤ c - 2) ∧
    (∀ m1 m2, m1 < c → m2 < c → probeIter c (1 + hval % (c - 2)) hval m1
        = probeIter c (1 + hval % (c - 2)) hval m2 → m1 = m2) ∧
    (∀ j, 1 ≤ j → j ≤ c → ∃ m, m < c ∧ probeIter c (1 + hval % (c - 2)) hval m = j) ∧
    probeIter c (1 + hval % (c - 2)) hval c = hval ∧
    (∀ tbl k fuel, c ≤ fuel →
      probeLoop tbl c hval (1 + hval % (c - 2)) k hval fuel
        = probeLoop tbl c hval (1 + hval % (c - 2)) k hval c) ∧
    (∀ (s : htab_table) tbl (k : List Nat), s.table = some tbl → s.size = c →
      tbl.length = c + 1 → entryAt tbl 0 = ⟨0, none⟩ → s.filled = usedCount tbl →
      (entryAt tbl hval).used ≠ 0 →
      probeLoop tbl c hval (1 + hval % (c - 2)) k hval c = ProbeExit.insert hval →
      (∀ j, 1 ≤ j → j ≤ c → (entryAt tbl j).used ≠ 0) ∧ s.filled = s.size) := by
  have hb := hval2_bounds hval c hc3
  have hhlt : hval < c := by omega
  refine ⟨⟨hb.1, by omega⟩,
    fun m1 m2 hm1 hm2 => probeIter_inj c (1 + hval % (c - 2)) hval hc hh1
      (by omega) hb.1 hb.2 m1 m2 hm1 hm2,
    fun j hj1 hj2 => probeIter_cover c (1 + hval % (c - 2)) hval hc hh1
      (by omega) hb.1 hb.2 j hj1 hj2,
    probeIter_cycle c (1 + hval % (c - 2)) hval hh1 (by omega) hb.1 hb.2,
    fun tbl k fuel hf => probeLoop_fuel_irrel tbl c (1 + hval % (c - 2)) hval k
      hc hh1 hhlt hb.1 hb.2 fuel hf, ?_⟩
  intro s tbl k htab hsz hlen h0 hfc hu hloop
  have hres := probeLoop_spec tbl c (1 + hval % (c - 2)) hval k hc hh1 hhlt
    hb.1 hb.2 c 1 (by omega) (by omega) (by omega) (by intro j hj1 hj2; omega)
  have h0it : probeIter c (1 + hval % (c - 2)) hval (1 - 1) = hval := rfl
  rw [h0it] at hres
  rcases hres with ⟨m', hm'1, hm'c, _, hresm⟩ | ⟨hall, _⟩
  · exfalso
    rcases hresm with ⟨_, hr⟩ | ⟨_, _, hr⟩
    · rw [hloop] at hr
      exact ProbeExit.noConfusion hr
    · rw [hloop] at hr
      have hih : hval = probeIter c (1 + hval % (c - 2)) hval m' := by
        injection hr with hx
      exact probeIter_ne c (1 + hval % (c - 2)) hval hc hh1 (by omega) hb.1 hb.2
        m' hm'1 hm'c hih.symm
  · have hallused : ∀ j, 1 ≤ j → j ≤ c → (entryAt tbl j).used ≠ 0 := by
      intro j hj1 hj2
      obtain ⟨m, hmc, hmj⟩ := probeIter_cover c (1 + hval % (c - 2)) hval hc hh1
        (by omega) hb.1 hb.2 j hj1 hj2
      rcases Nat.eq_zero_or_pos m with hm0 | hmpos
      · rw [hm0] at hmj
        have hpz : probeIter c (1 + hval % (c - 2)) hval 0 = hval := rfl
        rw [hpz] at hmj
        rw [← hmj]
        exact hu
      · have := hall m (by omega) hmc
        rw [hmj] at this
        exact this.2
    refine ⟨hallused, ?_⟩
    have hle := usedCount_le tbl c hlen h0
    have hge : ¬ usedCount tbl < c := by
      intro hlt
      obtain ⟨j, hj1, hj2, hjf⟩ := exists_free_of_usedCount_lt tbl c hlen hlt
      exact hallused j hj1 hj2 hjf
    omega

/-- Witness for C3 at the concrete prime capacity 5 with home index 2. -/
theorem claim_C3_witness :
    Nat.Prime 5 ∧ probeIter 5 (1 + 2 % 3) 2 5 = 2 :=
  ⟨by decide, (claim_C3 5 2 (by decide) (by decide) (by decide)
    (by decide)).2.2.2.1⟩

/-- C4: on any successfully created table, inserting `capacity` pairwise
distinct keys (all allocations succeeding) returns a non-zero index every
time and fills the table; one further distinct key is rejected with the
sentinel 0 and no state change; and after any sequence of operations (with
any allocation outcomes and NULL keys) `filled` never exceeds `capacity`. -/
theorem claim_C4 (nel : Nat) (s0 : htab_table)
    (hcr : htab_create true nel (some ⟨none, 0, 0⟩) = (true, some s0)) :
    (∀ ks : List (List Nat), ks.Nodup → ks.length = s0.size →
      (∀ r ∈ (insertList ks (some s0)).1, r ≠ 0) ∧
      ∃ s1, (insertList ks (some s0)).2 = some s1 ∧ s1.filled = s1.size ∧
        ∀ k, k ∉ ks → htab_hash true (some k) (some s1) = (0, some s1)) ∧
    (∀ ops, ∃ s2, applyOps ops (some s0) = some s2 ∧ s2.filled ≤ s2.size) := by
  obtain ⟨hWF0, hf0, hsz0⟩ := WF_of_create nel ⟨none, 0, 0⟩ s0 rfl hcr
  constructor
  · intro ks hnd hlen
    have hnk : ∀ k' ∈ ks, ¬ hasKey (theTable s0) k' :=
      fun k' _ => no_keys_of_empty s0 hWF0 hf0 k'
    obtain ⟨s1, hap, hWF1, hsz, hfl, hnz, hkeys⟩ :=
      insertList_spec ks s0 hWF0 hnk hnd (by omega)
    refine ⟨hnz, s1, hap, by omega, ?_⟩
    intro k hk
    apply full_miss true s1 k hWF1 (by omega)
    intro hhk
    rcases hkeys k hhk with hin | hh
    · exact hk hin
    · exact no_keys_of_empty s0 hWF0 hf0 k hh
  · intro ops
    obtain ⟨s2, hap, hle, _⟩ := applyOps_filled ops s0 (by omega)
    exact ⟨s2, hap, hle⟩

/-- Witness for C4: Create(4) gives capacity 5; the five distinct one-byte
keys 1..5 all insert with non-zero indices. -/
theorem claim_C4_witness :
    htab_create true 4 (some ⟨none, 0, 0⟩)
      = (true, some ⟨some (List.replicate 6 ⟨0, none⟩), 5, 0⟩) ∧
    (∀ r ∈ (insertList [[1], [2], [3], [4], [5]]
      (some ⟨some (List.replicate 6 ⟨0, none⟩), 5, 0⟩)).1, r ≠ 0) :=
  ⟨by decide,
    ((claim_C4 4 ⟨some (List.replicate 6 ⟨0, none⟩), 5, 0⟩ (by decide)).1
      [[1], [2], [3], [4], [5]] (by decide) (by decide)).1⟩

/-- C5: on a live, well-formed, non-full table, calling lookup-or-insert
twice in a row with the same key (allocations succeeding) returns the same
slot index both times; the first call raises `filled` by at most 1 and the
second call leaves the state — hence `filled` — completely unchanged. -/
theorem claim_C5 (s : htab_table) (k : List Nat) (hWF : WF s)
    (hlt : s.filled < s.size) :
    ∃ i s1 s2, htab_hash true (some k) (some s) = (i, some s1) ∧
      htab_hash true (some k) (some s1) = (i, some s2) ∧ s2 = s1 ∧
      s1.filled ≤ s.filled + 1 ∧ s2.filled = s1.filled := by
  obtain ⟨i, s1, h1, h2, hle, _⟩ := idempotent_pair s k hWF hlt
  exact ⟨i, s1, s1, h1, h2, rfl, hle, rfl⟩

/-- Witness for C5 on the freshly created capacity-5 table with key `[1]`. -/
theorem claim_C5_witness :
    WF ⟨some (List.replicate 6 ⟨0, none⟩), 5, 0⟩ ∧
    (⟨some (List.replicate 6 ⟨0, none⟩), 5, 0⟩ : htab_table).filled
      < (⟨some (List.replicate 6 ⟨0, none⟩), 5, 0⟩ : htab_table).size ∧
    ∃ i s1 s2, htab_hash true (some [1])
        (some ⟨some (List.replicate 6 ⟨0, none⟩), 5, 0⟩) = (i, some s1) ∧
      htab_hash true (some [1]) (some s1) = (i, some s2) ∧ s2 = s1 ∧
      s1.filled ≤ (⟨some (List.replicate 6 ⟨0, none⟩), 5, 0⟩ : htab_table).filled + 1 ∧
      s2.filled = s1.filled :=
  ⟨by decide, by decide,
    claim_C5 ⟨some (List.replicate 6 ⟨0, none⟩), 5, 0⟩ [1] (by decide) (by decide)⟩

/-- C6: the concrete scenario.  Create(10) yields capacity 11; inserting
"apple" (bytes [97,112,112,108,101]), "banana" ([98,97,110,97,110,97]),
"apple" in sequence returns indices 4, 1, 4: the first two are distinct and
non-zero with `filled = 2` afterwards, and the third call returns the same
index as the first with the state — hence `filled` — unchanged at 2. -/
theorem claim_C6 :
    htab_create true 10 (some ⟨none, 0, 0⟩)
      = (true, some ⟨some (List.replicate 12 ⟨0, none⟩), 11, 0⟩) ∧
    (htab_hash true (some [97, 112, 112, 108, 101])
      (some ⟨some (List.replicate 12 ⟨0, none⟩), 11, 0⟩)).1 = 4 ∧
    (htab_hash true (some [98, 97, 110, 97, 110, 97])
      (htab_hash true (some [97, 112, 112, 108, 101])
        (some ⟨some (List.replicate 12 ⟨0, none⟩), 11, 0⟩)).2).1 = 1 ∧
    (4 : Nat) ≠ 0 ∧ (1 : Nat) ≠ 0 ∧ (4 : Nat) ≠ 1 ∧
    ((htab_hash true (some [98, 97, 110, 97, 110, 97])
      (htab_hash true (some [97, 112, 112, 108, 101])
        (some ⟨some (List.replicate 12 ⟨0, none⟩), 11, 0⟩)).2).2.map
          htab_table.filled = some 2) ∧
    (htab_hash true (some [97, 112, 112, 108, 101])
      (htab_hash true (some [98, 97, 110, 97, 110, 97])
        (htab_hash true (some [97, 112, 112, 108, 101])
          (some ⟨some (List.replicate 12 ⟨0, none⟩), 11, 0⟩)).2).2).1 = 4 ∧
    (htab_hash true (some [97, 112, 112, 108, 101])
      (htab_hash true (some [98, 97, 110, 97, 110, 97])
        (htab_hash true (some [97, 112, 112, 108, 101])
          (some ⟨some (List.replicate 12 ⟨0, none⟩), 11, 0⟩)).2).2).2
      = (htab_hash true (some [98, 97, 110, 97, 110, 97])
        (htab_hash true (some [97, 112, 112, 108, 101])
          (some ⟨some (List.replicate 12 ⟨0, none⟩), 11, 0⟩)).2).2 := by
  refine ⟨by decide, by decide, by decide, by decide, by decide, by decide,
    by decide, by decide, by decide⟩

/-- C7 counterexample: the claim quantifies over every sequence of Create and
Lookup-or-Insert operations, but a lookup-or-insert whose key duplication
fails leaves a slot with a non-zero tag and no stored key, refuting "tag is
non-zero iff the slot holds a stored key".  Concretely: Create(4) (capacity
5), then insert key `[1]` with a failing allocation — slot 1 ends with tag 1
and no string. -/
theorem claim_C7_counterexample :
    (htab_create true 4 (some ⟨none, 0, 0⟩)).2
      = some ⟨some (List.replicate 6 ⟨0, none⟩), 5, 0⟩ ∧
    applyOps [(false, some [1])] (some ⟨some (List.replicate 6 ⟨0, none⟩), 5, 0⟩)
      = some ⟨some ((List.replicate 6 (⟨0, none⟩ : htab_entry)).set 1 ⟨1, none⟩),
              5, 0⟩ ∧
    (entryAt ((List.replicate 6 (⟨0, none⟩ : htab_entry)).set 1 ⟨1, none⟩) 1).used ≠ 0 ∧
    ¬ ∃ kk, (entryAt ((List.replicate 6 (⟨0, none⟩ : htab_entry)).set 1 ⟨1, none⟩) 1).str
      = some kk := by
  refine ⟨by decide, by decide, by decide, ?_⟩
  rintro ⟨kk, hkk⟩
  have : (entryAt ((List.replicate 6 (⟨0, none⟩ : htab_entry)).set 1 ⟨1, none⟩) 1).str
      = none := by decide
  rw [this] at hkk
  exact Option.noConfusion hkk

/-- C7 amended: after every sequence of Create and Lookup-or-Insert
operations *in which every allocation succeeds*, every slot of the live
table satisfies: its tag is non-zero iff it holds a stored key, and an
occupied slot's tag equals the primary hash of its stored key (sdbm
accumulation bumped away from 0, reduced modulo capacity, bumped away from
index 0 — i.e. `tableHash`). -/
theorem claim_C7 (nel : Nat) (s0 : htab_table)
    (hcr : htab_create true nel (some ⟨none, 0, 0⟩) = (true, some s0))
    (ops : List (Option (List Nat))) :
    ∃ s' tbl', applyOps (ops.map (fun k => (true, k))) (some s0) = some s' ∧
      s'.table = some tbl' ∧
      ∀ i, i < tbl'.length →
        ((entryAt tbl' i).used ≠ 0 ↔ ∃ kk, (entryAt tbl' i).str = some kk) ∧
        (∀ kk, (entryAt tbl' i).str = some kk →
          (entryAt tbl' i).used = tableHash kk s'.size) := by
  obtain ⟨hWF0, _, _⟩ := WF_of_create nel ⟨none, 0, 0⟩ s0 rfl hcr
  obtain ⟨s', hap, hWF', _⟩ := WF_applyOps ops s0 hWF0
  obtain ⟨htab, hlen, hgs, h0, hfc, htags⟩ := hWF'
  refine ⟨s', theTable s', hap, htab, ?_⟩
  intro i hi
  have ht := htags i hi
  refine ⟨⟨?_, ?_⟩, ?_⟩
  · intro hu
    cases hstr : (entryAt (theTable s') i).str with
    | none =>
        rw [hstr] at ht
        exact absurd (show (entryAt (theTable s') i).used = 0 from ht) hu
    | some kk => exact ⟨kk, rfl⟩
  · rintro ⟨kk, hstr⟩
    rw [hstr] at ht
    have hpos := tableHash_pos kk s'.size
    have ht' : (entryAt (theTable s') i).used = tableHash kk s'.size := ht
    omega
  · intro kk hstr
    rw [hstr] at ht
    exact ht

/-- Witness for C7 amended: Create(4), then one successful insert of `[1]`. -/
theorem claim_C7_witness :
    ∃ s' tbl', applyOps ([some [1]].map (fun k => (true, k)))
        (some ⟨some (List.replicate 6 ⟨0, none⟩), 5, 0⟩) = some s' ∧
      s'.table = some tbl' ∧
      ∀ i, i < tbl'.length →
        ((entryAt tbl' i).used ≠ 0 ↔ ∃ kk, (entryAt tbl' i).str = some kk) ∧
        (∀ kk, (entryAt tbl' i).str = some kk →
          (entryAt tbl' i).used = tableHash kk s'.size) :=
  claim_C7 4 ⟨some (List.replicate 6 ⟨0, none⟩), 5, 0⟩ (by decide) [some [1]]

/-- C8: lookup-or-insert with a NULL table handle, a table whose slot array
was never created (or has been destroyed), or a NULL key returns the
sentinel index 0 and performs no state change, for every allocation outcome
and every table state. -/
theorem claim_C8 :
    (∀ (a : Bool) (s : Option (List Nat)), htab_hash a s none = (0, none)) ∧
    (∀ (a : Bool) (s : Option (List Nat)) (sz f : Nat),
      htab_hash a s (some ⟨none, sz, f⟩) = (0, some ⟨none, sz, f⟩)) ∧
    (∀ (a : Bool) (h : htab_table), htab_hash a none (some h) = (0, some h)) :=
  ⟨fun _ _ => rfl,
   fun a s sz f => htab_hash_notable a s ⟨none, sz, f⟩ rfl,
   fun a h => htab_hash_nullkey a h⟩

/-- C9 counterexample: the claim says slot 0 is never written by any
operation and stays zero-initialized from Create until Destroy.  On the
degenerate capacity-1 table that Create(1) produces, an insert whose
allocation fails poisons slot 1 (tag set, no key, `filled` still 0); the next
insert then probes past the poisoned home slot to index 0, finds it free and
not yet back at the start, and — since `filled < size` — writes the key into
slot 0 (returning 0, the "failure" sentinel, for a successful insert).
Slot 0 is no longer in its zero-initialized state. -/
theorem claim_C9_counterexample :
    (htab_create true 1 (some ⟨none, 0, 0⟩)).2
      = some ⟨some (List.replicate 2 ⟨0, none⟩), 1, 0⟩ ∧
    applyOps [(false, some [1]), (true, some [2])]
        (some ⟨some (List.replicate 2 ⟨0, none⟩), 1, 0⟩)
      = some ⟨some [⟨1, some [2]⟩, ⟨1, none⟩], 1, 1⟩ ∧
    entryAt [(⟨1, some [2]⟩ : htab_entry), ⟨1, none⟩] 0 ≠ ⟨0, none⟩ := by
  refine ⟨by decide, by decide, by decide⟩

/-- C9 amended: every non-zero index returned by lookup-or-insert on a table
of a size Create can produce lies in `[1, capacity]`; it can equal `capacity`
itself (witnessed below on a capacity-5 table whose probe chain ends at slot
5); and slot 0 stays in its zero-initialized state from Create through every
sequence of operations *whose allocations succeed*. -/
theorem claim_C9 :
    (∀ (a : Bool) (k : List Nat) (s : htab_table) (r : Nat) (s2 : Option htab_table),
      goodSize s.size → htab_hash a (some k) (some s) = (r, s2) → r ≠ 0 →
      1 ≤ r ∧ r ≤ s.size) ∧
    (∀ (nel : Nat) (s0 : htab_table) (ops : List (Option (List Nat))) (s' : htab_table),
      htab_create true nel (some ⟨none, 0, 0⟩) = (true, some s0) →
      applyOps (ops.map (fun k => (true, k))) (some s0) = some s' →
      ∃ tbl', s'.table = some tbl' ∧ entryAt tbl' 0 = ⟨0, none⟩) ∧
    (∃ (s : htab_table) (k : List Nat) (s1 : Option htab_table),
      WF s ∧ htab_hash true (some k) (some s) = (s.size, s1)) := by
  refine ⟨?_, ?_, ?_⟩
  · intro a k s r s2 hgs hres hr
    exact hash_result_range a k s r s2 hgs hres hr
  · intro nel s0 ops s' hcr hap
    obtain ⟨hWF0, _, _⟩ := WF_of_create nel ⟨none, 0, 0⟩ s0 rfl hcr
    obtain ⟨s'', hap', hWF'', _⟩ := WF_applyOps ops s0 hWF0
    rw [hap] at hap'
    have hss : s' = s'' := by
      injection hap' with hx
    subst hss
    obtain ⟨htab, _, _, h0, _, _⟩ := hWF''
    exact ⟨theTable s', htab, h0⟩
  · refine ⟨⟨some [⟨0, none⟩, ⟨2, some [12]⟩, ⟨2, some [2]⟩, ⟨2, some [17]⟩,
      ⟨2, some [7]⟩, ⟨0, none⟩], 5, 4⟩, [22],
      some ⟨some [⟨0, none⟩, ⟨2, some [12]⟩, ⟨2, some [2]⟩, ⟨2, some [17]⟩,
        ⟨2, some [7]⟩, ⟨2, some [22]⟩], 5, 5⟩, by decide, by decide⟩

/-- Witness for C9 discharging the range part on a concrete call: inserting
`[1]` into the fresh capacity-5 table returns index 1 ∈ [1, 5]. -/
theorem claim_C9_witness : (1 : Nat) ≤ 1 ∧ (1 : Nat) ≤ 5 :=
  claim_C9.1 true [1] ⟨some (List.replicate 6 ⟨0, none⟩), 5, 0⟩ 1
    (some ⟨some ((List.replicate 6 (⟨0, none⟩ : htab_entry)).set 1 ⟨1, some [1]⟩),
      5, 1⟩) (by decide) (by decide) (by decide)

/-- C10: Destroy on a NULL handle or on a table whose slot array was never
created (or already destroyed) is a no-op; Destroy on a live table resets
`size` and `filled` to 0 and clears the slot array; Destroy is idempotent;
and a subsequent Create on the destroyed handle succeeds. -/
theorem claim_C10 :
    (htab_destroy none = none) ∧
    (∀ sz f : Nat, htab_destroy (some ⟨none, sz, f⟩) = some ⟨none, sz, f⟩) ∧
    (∀ (h : htab_table) (tbl : List htab_entry), h.table = some tbl →
      htab_destroy (some h) = some ⟨none, 0, 0⟩) ∧
    (∀ x : Option htab_table, htab_destroy (htab_destroy x) = htab_destroy x) ∧
    (∀ (h : htab_table) (tbl : List htab_entry) (nel : Nat), h.table = some tbl →
      htab_create true nel (htab_destroy (some h))
        = (true, some ⟨some (List.replicate (htabSize nel + 1) ⟨0, none⟩),
                       htabSize nel, 0⟩)) := by
  have hlive : ∀ (h : htab_table) (tbl : List htab_entry), h.table = some tbl →
      htab_destroy (some h) = some ⟨none, 0, 0⟩ := by
    intro h tbl ht
    rw [htab_destroy, ht]
  refine ⟨rfl, fun sz f => rfl, hlive, ?_, ?_⟩
  · intro x
    match x with
    | none => rfl
    | some h =>
        cases ht : h.table with
        | none =>
            have hh : htab_destroy (some h) = some h := by
              rw [htab_destroy, ht]
            rw [hh, hh]
        | some tbl =>
            rw [hlive h tbl ht]
            rfl
  · intro h tbl nel ht
    rw [hlive h tbl ht]
    exact htab_create_ok nel ⟨none, 0, 0⟩ rfl

/-- Witness for C10 on a concrete live table. -/
theorem claim_C10_witness :
    htab_destroy (some ⟨some [⟨0, none⟩, ⟨1, some [1]⟩], 1, 1⟩)
      = some ⟨none, 0, 0⟩ :=
  claim_C10.2.2.1 ⟨some [⟨0, none⟩, ⟨1, some [1]⟩], 1, 1⟩ [⟨0, none⟩, ⟨1, some [1]⟩] rfl
